import Mathlib

/-!
# Queue system simulator: formal model and verification

A shallow embedding of the discrete-event queue/worker/rate-limit simulator
(admission-controlled FIFO queue, worker pool, rate-limited fallback API
client, statistics module) together with proofs of its specified properties.

The repository ships only the project README describing the simulator
(`src/simulator.py`, `src/api_client.py`, `src/worker.py`,
`src/queue_manager.py`, `src/statistics.py`, `main.py` are not present),
so the executable definitions below are modelled from the specification's
words. Virtual timestamps and durations are integers; the statistics that
need division (mean, interpolated percentiles) are rationals; counts are
naturals.
-/

namespace QueueSim

/-- Lifecycle states of a task:
`Arrived → {Rejected | Queued} → {Failed | InService} → {Completed}`. -/
inductive TaskState
  | arrived
  | queued
  | inService
  | rejected
  | failed
  | completed
deriving DecidableEq, Repr

/-- Modelled from the spec: the `Request` data class of `src/data_model.py`:
identity, arrival timestamp, required service duration, queue-entry
timestamp, service-start and service-end timestamps, terminal state, and
the id of the endpoint that served it (absent when failed or rejected). -/
structure Task where
  id : Nat
  arrival : ℤ
  duration : ℤ
  queueEntry : ℤ
  serviceStart : ℤ
  serviceEnd : ℤ
  state : TaskState
  usedApi : Option Nat
deriving DecidableEq, Repr

/-- A task is terminal when it is rejected, failed or completed. -/
def Task.isTerminal (t : Task) : Prop :=
  t.state = .rejected ∨ t.state = .failed ∨ t.state = .completed

instance (t : Task) : Decidable t.isTerminal := by
  unfold Task.isTerminal; infer_instance

/-- Modelled from the spec: `FifoQueue` of `src/queue_manager.py` — a bounded
FIFO; `capacity = none` means unbounded. -/
structure FifoQueue where
  items : List Task
  capacity : Option Nat
deriving DecidableEq, Repr

def FifoQueue.size (q : FifoQueue) : Nat := q.items.length

/-- Whether the queue can accept one more task: `size < capacity`, or
always when unbounded. -/
def FifoQueue.hasRoom (q : FifoQueue) : Bool :=
  match q.capacity with
  | none => true
  | some c => decide (q.size < c)

/-- Modelled from the spec: `tryEnqueue` appends to the tail and returns
accepted when there is room; otherwise returns rejected without mutating
the queue. -/
def FifoQueue.tryEnqueue (q : FifoQueue) (t : Task) : Bool × FifoQueue :=
  if q.hasRoom then (true, ⟨q.items ++ [t], q.capacity⟩) else (false, q)

/-- Modelled from the spec: `dequeue` removes and returns the head. -/
def FifoQueue.dequeue (q : FifoQueue) : Option Task × FifoQueue :=
  match q.items with
  | [] => (none, q)
  | t :: rest => (some t, ⟨rest, q.capacity⟩)

/-- The fixed-window index of a timestamp: `floor(now / 60)` — windows are
anchored at multiples of 60 from simulation start. On `ℤ`, division by the
positive constant 60 is euclidean division, which is exactly floor
division. -/
def windowOf (t : ℤ) : ℤ := t / 60

/-- Modelled from the spec: a Resource Endpoint of `src/api_client.py`:
per-minute admission cap, the stored fixed-window index, and the number of
admissions counted in that window. -/
structure Endpoint where
  rpmLimit : Nat
  windowIdx : ℤ
  count : Nat
deriving DecidableEq, Repr

/-- Modelled from the spec: `tryAdmit(now)` — compute the window index
`⌊now / 60⌋`; if the stored index differs, reset the counter and store the
new index; grant and increment while the counter is below `rpmLimit`,
deny otherwise. -/
def Endpoint.tryAdmit (e : Endpoint) (now : ℤ) : Bool × Endpoint :=
  let w : ℤ := windowOf now
  let e' : Endpoint :=
    if e.windowIdx ≠ w then { rpmLimit := e.rpmLimit, windowIdx := w, count := 0 } else e
  if e'.count < e'.rpmLimit then
    (true, { rpmLimit := e'.rpmLimit, windowIdx := e'.windowIdx, count := e'.count + 1 })
  else
    (false, e')

/-- Modelled from the spec: `APIClient` of `src/api_client.py` — an ordered
list of endpoints tried in fixed priority order. -/
structure APIClient where
  endpoints : List Endpoint
deriving DecidableEq, Repr

/-- Try the endpoints in order from index 0; the first grant stops the
search and yields that endpoint's index. -/
def acquireAux (now : ℤ) : List Endpoint → Option Nat × List Endpoint
  | [] => (none, [])
  | e :: rest =>
    match e.tryAdmit now with
    | (true, e') => (some 0, e' :: rest)
    | (false, e') =>
      let r := acquireAux now rest
      (r.1.map (· + 1), e' :: r.2)

/-- Modelled from the spec: `acquire(now) -> {granted: endpointId} | exhausted`
on the client; endpoints are tried starting from index 0 on every call. -/
def APIClient.acquire (c : APIClient) (now : ℤ) : Option Nat × APIClient :=
  let r := acquireAux now c.endpoints
  (r.1, ⟨r.2⟩)

/-- Outcome of a worker's `startService`: either the task is being served
(with its completion time) or it failed immediately. -/
inductive StartOutcome
  | serving (t : Task) (done : ℤ)
  | failedT (t : Task)
deriving DecidableEq, Repr

/-- Modelled from the spec: the resource-acquisition step of
`Worker.startService(task, now)`. On exhaustion the task is marked Failed
with service-start = service-end = now and no service duration consumed;
on a grant the task records its endpoint id and service-start = now, and
completion is at `now + duration`. -/
def startServiceCore (c : APIClient) (task : Task) (now : ℤ) : StartOutcome × APIClient :=
  match c.acquire now with
  | (some i, c') =>
    (.serving { task with serviceStart := now, state := .inService, usedApi := some i }
      (now + task.duration), c')
  | (none, c') =>
    let t' : Task :=
      { task with serviceStart := now, serviceEnd := now, state := .failed, usedApi := none }
    (.failedT t', c')

/-- Modelled from the spec: `Worker` of `src/worker.py` — idle, or busy with
one task and its completion timestamp. -/
structure Worker where
  busy : Option (Task × ℤ)
deriving DecidableEq, Repr

def Worker.isIdle (w : Worker) : Bool := w.busy.isNone

/-- Pending events of the engine: a task arrival, or a worker completion.
Dispatch-retry events are never generated: a resource-exhaustion failure is
handled inside the originating step (spec §4.4 step 3). -/
inductive Event
  | arrival (t : ℤ) (task : Task)
  | completion (t : ℤ) (widx : Nat)
deriving DecidableEq, Repr

def Event.time : Event → ℤ
  | .arrival t _ => t
  | .completion t _ => t

/-- Type priority at equal timestamps: completion (0) before
dispatch-retry (1, never generated) before arrival (2). -/
def Event.prio : Event → Nat
  | .arrival _ _ => 2
  | .completion _ _ => 0

/-- Event processing order: lexicographic on (timestamp, type priority). -/
def evLE (a b : Event) : Prop :=
  a.time < b.time ∨ (a.time = b.time ∧ a.prio ≤ b.prio)

instance (a b : Event) : Decidable (evLE a b) := by
  unfold evLE; infer_instance

/-- Select the first occurrence of the minimal event under `evLE`,
returning it with the remaining events in their original order. -/
def selectMin : List Event → Option (Event × List Event)
  | [] => none
  | e :: rest =>
    match selectMin rest with
    | none => some (e, [])
    | some (m, others) =>
      if evLE e m then some (e, rest) else some (m, e :: others)

/-- Simulation run state: pending events, the admission queue, the worker
pool, the shared rate-limited client, the terminal task list, the
service-start log (tasks in the order they began service), and the current
virtual time. -/
structure SimState where
  events : List Event
  queue : FifoQueue
  workers : List Worker
  client : APIClient
  finished : List Task
  started : List Task
  arrivedLog : List Task
  now : ℤ
deriving DecidableEq, Repr

/-- Result of draining the queue with one freed worker: updated client,
remaining queue items, service-start log entries, tasks failed during the
drain, and the task (with completion time) now being served, if any. -/
structure DrainResult where
  client : APIClient
  remaining : List Task
  startedLog : List Task
  failedDone : List Task
  serving : Option (Task × ℤ)
deriving DecidableEq, Repr

/-- Modelled from the spec: after a completion frees a worker, dequeue and
`startService` repeatedly — an immediate failure leaves the worker idle and
triggers another dequeue in the same logical step — until a task is served
or the queue is empty. -/
def drainAux (c : APIClient) (now : ℤ) : List Task → DrainResult
  | [] => ⟨c, [], [], [], none⟩
  | task :: rest =>
    match startServiceCore c task now with
    | (.serving t' done, c') => ⟨c', rest, [t'], [], some (t', done)⟩
    | (.failedT t', c') =>
      let r := drainAux c' now rest
      ⟨r.client, r.remaining, t' :: r.startedLog, t' :: r.failedDone, r.serving⟩

/-- Index of the first idle worker, if any. -/
def findIdle : List Worker → Option Nat
  | [] => none
  | w :: rest =>
    if w.isIdle then some 0
    else (findIdle rest).map (· + 1)

/-- Modelled from the spec: arrival-event processing. If a worker is idle
the queue is skipped entirely (fast path); otherwise the task is offered to
the admission queue, and on rejection it is terminal. -/
def handleArrival (s : SimState) (t : ℤ) (task0 : Task) : SimState :=
  let task := { task0 with queueEntry := t, state := .queued }
  match findIdle s.workers with
  | some i =>
    match startServiceCore s.client task t with
    | (.serving t' done, c') =>
      { s with workers := s.workers.set i ⟨some (t', done)⟩,
               client := c',
               events := s.events ++ [.completion done i],
               started := s.started ++ [t'],
               arrivedLog := s.arrivedLog ++ [task],
               now := t }
    | (.failedT t', c') =>
      { s with client := c',
               finished := s.finished ++ [t'],
               started := s.started ++ [t'],
               arrivedLog := s.arrivedLog ++ [task],
               now := t }
  | none =>
    match s.queue.tryEnqueue task with
    | (true, q') =>
      { s with queue := q', arrivedLog := s.arrivedLog ++ [task], now := t }
    | (false, _) =>
      { s with finished := s.finished ++ [{ task with state := .rejected }],
               arrivedLog := s.arrivedLog ++ [task],
               now := t }

/-- Modelled from the spec: completion-event processing. The worker's task
is marked Completed with service-end = now, the worker is freed, and the
queue is drained per `drainAux`. -/
def handleCompletion (s : SimState) (t : ℤ) (i : Nat) : SimState :=
  match s.workers[i]? with
  | some w =>
    match w.busy with
    | some (task, _) =>
      let doneTask := { task with serviceEnd := t, state := .completed }
      let ws := s.workers.set i ⟨none⟩
      let r := drainAux s.client t s.queue.items
      let base : SimState :=
        { s with workers := ws,
                 client := r.client,
                 queue := ⟨r.remaining, s.queue.capacity⟩,
                 finished := s.finished ++ doneTask :: r.failedDone,
                 started := s.started ++ r.startedLog,
                 now := t }
      match r.serving with
      | some (t', done) =>
        { base with workers := ws.set i ⟨some (t', done)⟩,
                    events := s.events ++ [.completion done i] }
      | none => base
    | none => { s with now := t }
  | none => { s with now := t }

/-- One step of the engine: extract the minimal pending event and process
it. Identity when no event is pending. -/
def step (s : SimState) : SimState :=
  match selectMin s.events with
  | none => s
  | some (ev, rest) =>
    let s' := { s with events := rest }
    match ev with
    | .arrival t task => handleArrival s' t task
    | .completion t i => handleCompletion s' t i

/-- Weight of a pending event for the termination measure: an arrival may
spawn one completion, a completion spawns at most one completion while
consuming queued work. -/
def Event.weight : Event → Nat
  | .arrival _ _ => 2
  | .completion _ _ => 1

def eventsWeight (l : List Event) : Nat := (l.map Event.weight).sum

/-- Termination measure of the engine: weighted pending events plus queued
tasks. It strictly decreases at every step that processes an event. -/
def simMeasure (s : SimState) : Nat := eventsWeight s.events + s.queue.items.length

/-- Run the engine for at most `fuel` steps, stopping when no event is
pending. -/
def runFuel : Nat → SimState → SimState
  | 0, s => s
  | n + 1, s => if s.events = [] then s else runFuel n (step s)

/-- Modelled from the spec: the `Simulator` run loop of `src/simulator.py`
drains the pending-event collection to empty; `simMeasure` fuel always
suffices (proved below). -/
def run (s : SimState) : SimState := runFuel (simMeasure s) s

/-- Modelled from the spec: initial run state built from the input task
list, worker count, queue capacity, endpoint count and per-endpoint rpm
limit. -/
def initState (tasks : List Task) (numWorkers : Nat) (cap : Option Nat)
    (numApis : Nat) (rpm : Nat) : SimState :=
  { events := tasks.map fun t => .arrival t.arrival t
    queue := ⟨[], cap⟩
    workers := List.replicate numWorkers ⟨none⟩
    client := ⟨List.replicate numApis ⟨rpm, 0, 0⟩⟩
    finished := []
    started := []
    arrivedLog := []
    now := 0 }

/-- Run the whole simulation from an input task list. -/
def simulate (tasks : List Task) (numWorkers : Nat) (cap : Option Nat)
    (numApis : Nat) (rpm : Nat) : SimState :=
  run (initState tasks numWorkers cap numApis rpm)

/-! ## Statistics module -/

/-- Insert a value into a sorted list of rationals keeping it sorted. -/
def insertSorted (x : ℤ) : List ℤ → List ℤ
  | [] => [x]
  | y :: rest => if x ≤ y then x :: y :: rest else y :: insertSorted x rest

/-- Sort a list of rationals (insertion sort). -/
def sortQ (l : List ℤ) : List ℤ := l.foldr insertSorted []

/-- Modelled from the spec: `calculate_percentiles` of `src/statistics.py`
computes a percentile on the sorted data list by linear interpolation
between the two nearest ranks (rank `p/100 * (n-1)`); 0 on empty data. -/
def percentileInterp (p : Nat) (data : List ℤ) : ℚ :=
  let sorted := sortQ data
  match sorted with
  | [] => 0
  | _ :: _ =>
    let n := sorted.length
    let rank : ℚ := (p : ℚ) / 100 * ((n : ℚ) - 1)
    let lo : Nat := (⌊rank⌋).toNat
    let hi : Nat := min (lo + 1) (n - 1)
    (sorted.getD lo 0 : ℚ) +
      (rank - (lo : ℚ)) * ((sorted.getD hi 0 : ℚ) - (sorted.getD lo 0 : ℚ))

/-- The requested percentiles, each paired with its interpolated value. -/
def calculate_percentiles (data : List ℤ) (ps : List Nat) : List (Nat × ℚ) :=
  ps.map fun p => (p, percentileInterp p data)

/-- Modelled from the spec: `calculate_queuing_times` of `src/statistics.py`
— the queueing delay `serviceStart - queueEntry` of every task that went
through dispatch (Completed or Failed); Rejected tasks contribute
nothing. -/
def calculate_queuing_times : List Task → List ℤ
  | [] => []
  | t :: rest =>
    match t.state with
    | .completed => (t.serviceStart - t.queueEntry) :: calculate_queuing_times rest
    | .failed => (t.serviceStart - t.queueEntry) :: calculate_queuing_times rest
    | _ => calculate_queuing_times rest

/-- Number of tasks in a given state. -/
def countState (ts : List Task) (st : TaskState) : Nat :=
  ts.countP fun t => decide (t.state = st)

/-- Increment the histogram count of key `k` in an association list. -/
def bumpUsage : List (Nat × Nat) → Nat → List (Nat × Nat)
  | [], k => [(k, 1)]
  | (k', c) :: rest, k =>
    if k' = k then (k', c + 1) :: rest else (k', c) :: bumpUsage rest k

/-- Modelled from the spec: the per-endpoint usage histogram
(`api_usage_counts`) — how many Completed tasks used each endpoint id. -/
def apiUsageCounts (ts : List Task) : List (Nat × Nat) :=
  ts.foldl (fun m t =>
    match t.state, t.usedApi with
    | .completed, some e => bumpUsage m e
    | _, _ => m) []

/-- Histogram lookup with default 0. -/
def usageOf : List (Nat × Nat) → Nat → Nat
  | [], _ => 0
  | (k, c) :: rest, e => if e = k then c else usageOf rest e

/-- Modelled from the spec: the statistics Report. -/
structure Report where
  total : Nat
  completedCount : Nat
  rejectedCount : Nat
  failedCount : Nat
  meanDelay : ℚ
  percentiles : List (Nat × ℚ)
  apiUsage : List (Nat × Nat)
deriving DecidableEq, Repr

/-- Modelled from the spec: `calculate_simulation_statistics` of
`src/statistics.py` — total input count, completed/rejected/failed counts,
mean queueing delay, requested percentiles, and the per-endpoint usage
histogram. -/
def calculate_simulation_statistics (tasks : List Task) (ps : List Nat) : Report :=
  let delays := calculate_queuing_times tasks
  { total := tasks.length
    completedCount := countState tasks .completed
    rejectedCount := countState tasks .rejected
    failedCount := countState tasks .failed
    meanDelay := if delays.length = 0 then 0 else (delays.sum : ℚ) / (delays.length : ℚ)
    percentiles := calculate_percentiles delays ps
    apiUsage := apiUsageCounts tasks }

/-! ## Configuration validation and system entry point -/

/-- Modelled from the spec: the run configuration consumed by `main.py`
(worker count, queue capacity, endpoint count, per-endpoint rpm limit);
integer fields so that malformed non-positive values are expressible. -/
structure SimConfig where
  numWorkers : ℤ
  queueCapacity : Option Nat
  numEndpoints : ℤ
  rpmLimit : ℤ
deriving DecidableEq, Repr

/-- Modelled from the spec: configuration validation — worker and endpoint
counts must be positive, the rate limit non-negative, and every service
duration non-negative. -/
def configValid (cfg : SimConfig) (tasks : List Task) : Bool :=
  decide (0 < cfg.numWorkers) && decide (0 < cfg.numEndpoints) &&
    decide (0 ≤ cfg.rpmLimit) && tasks.all fun t => decide (0 ≤ t.duration)

/-- Modelled from the spec: the Engine entry point of `main.py` — it
validates the configuration before any event is processed and refuses to
start the run (no simulation step, no statistics) on malformed input. -/
def runSystem (cfg : SimConfig) (tasks : List Task) (ps : List Nat) :
    Except String Report :=
  if configValid cfg tasks then
    let final := simulate tasks cfg.numWorkers.toNat cfg.queueCapacity
      cfg.numEndpoints.toNat cfg.rpmLimit.toNat
    .ok (calculate_simulation_statistics final.finished ps)
  else
    .error "invalid configuration"

/-! ## Declarative characterizations used by the theorems -/

/-- Endpoint `j` of the list would grant a call at `now`. -/
def grantsAt (l : List Endpoint) (now : ℤ) (j : Nat) : Prop :=
  ∃ e, l[j]? = some e ∧ (e.tryAdmit now).1 = true

instance (l : List Endpoint) (now : ℤ) (j : Nat) : Decidable (grantsAt l now j) := by
  unfold grantsAt
  cases l[j]? with
  | none => exact .isFalse (by simp)
  | some e => exact decidable_of_iff ((e.tryAdmit now).1 = true) (by simp)

/-- Feed a sequence of call timestamps to one endpoint, collecting the
grant/deny decision of each call. -/
def admitTrace (e : Endpoint) : List ℤ → List Bool × Endpoint
  | [] => ([], e)
  | t :: rest =>
    let r := e.tryAdmit t
    let r2 := admitTrace r.2 rest
    (r.1 :: r2.1, r2.2)

/-- How many calls of the trace were granted with a timestamp inside the
fixed window `W`. -/
def grantedInWindow (times : List ℤ) (res : List Bool) (W : ℤ) : Nat :=
  (times.zip res).countP fun p => decide (windowOf p.1 = W) && p.2

/-- Tasks still held inside pending arrival events. -/
def pendingTasks (l : List Event) : List Task :=
  l.filterMap fun e =>
    match e with
    | .arrival _ t => some t
    | .completion _ _ => none

/-- Tasks currently held by busy workers. -/
def busyList (ws : List Worker) : List Task :=
  ws.filterMap fun w => w.busy.map Prod.fst

/-- The ids of a task list, as a multiset. -/
def idsOf (l : List Task) : Multiset Nat := (l.map Task.id : List Nat)

/-- All tasks alive in a run state: terminal, queued, in service, or still
pending arrival. -/
def liveTasks (s : SimState) : List Task :=
  s.finished ++ s.queue.items ++ busyList s.workers ++ pendingTasks s.events

/-- Whether worker `i` is busy. -/
def busyAt (ws : List Worker) (i : Nat) : Bool :=
  match ws[i]? with
  | some w => w.busy.isSome
  | none => false

/-- Whether an event is a completion event for worker `i`. -/
def isCompletionFor (i : Nat) : Event → Bool
  | .completion _ j => decide (j = i)
  | .arrival _ _ => false

/-- The queue length respects the configured capacity. -/
def capOk (s : SimState) : Prop :=
  match s.queue.capacity with
  | none => True
  | some c => s.queue.items.length ≤ c

/-- States reachable from `s0` by engine steps. -/
inductive Reach (s0 : SimState) : SimState → Prop
  | refl : Reach s0 s0
  | tail {s : SimState} : Reach s0 s → Reach s0 (step s)

/-- The serving slot of a drain result, as a (zero- or one-element) task
list. -/
def servingList (o : Option (Task × ℤ)) : List Task :=
  match o with
  | none => []
  | some (t, _) => [t]

/-- Timestamps of the pending arrival events, in list order. -/
def pendingArrTimes (l : List Event) : List ℤ :=
  l.filterMap fun e =>
    match e with
    | .arrival t _ => some t
    | .completion _ _ => none

/-- A nonempty admission queue means every worker is busy: arrivals are
queued only when no worker is idle, and a completion drains the queue
before its worker can stay idle. -/
def qBusy (s : SimState) : Prop :=
  s.queue.items ≠ [] → ∀ w ∈ s.workers, w.busy.isSome = true

/-- The conservation invariant of a run (claim C1): live task ids are the
input ids, finished tasks are terminal, each busy worker owns exactly one
pending completion event, and the worker pool is nonempty. -/
structure Inv (input : List Task) (s : SimState) : Prop where
  conserved : idsOf (liveTasks s) = idsOf input
  finTerm : ∀ t ∈ s.finished, t.isTerminal
  busyOne : ∀ i : Nat,
    s.events.countP (isCompletionFor i) = (if busyAt s.workers i then 1 else 0)
  queueBusy : qBusy s
  workersPos : s.workers ≠ []

/-- The ordering invariant of a run with an unbounded queue (claim C6):
virtual time is monotone, pending arrivals stay sorted, service starts
happen in arrival order with non-decreasing timestamps. -/
structure InvOrder (input : List Task) (s : SimState) : Prop where
  unbounded : s.queue.capacity = none
  timeMono : ∀ e ∈ s.events, s.now ≤ e.time
  durQ : ∀ t ∈ s.queue.items, 0 ≤ t.duration
  durEv : ∀ t ∈ pendingTasks s.events, 0 ≤ t.duration
  arrSorted : (pendingArrTimes s.events).Pairwise (· ≤ ·)
  orderInv : s.arrivedLog.map Task.id = s.started.map Task.id ++ s.queue.items.map Task.id
  logInv : s.arrivedLog.map Task.id ++ (pendingTasks s.events).map Task.id = input.map Task.id
  startMono : (s.started.map Task.serviceStart).Pairwise (· ≤ ·)
  startLast : ∀ q ∈ s.started, q.serviceStart ≤ s.now
  queueBusy : qBusy s

/-! ## Sorting helpers -/

theorem insertSorted_eq_orderedInsert (x : ℤ) (l : List ℤ) :
    insertSorted x l = List.orderedInsert (· ≤ ·) x l := by
  induction l with
  | nil => rfl
  | cons y rest ih => simp only [insertSorted, List.orderedInsert, ih]

theorem sortQ_eq_insertionSort (l : List ℤ) :
    sortQ l = List.insertionSort (· ≤ ·) l := by
  induction l with
  | nil => rfl
  | cons y rest ih =>
    simp only [sortQ, List.foldr, List.insertionSort, insertSorted_eq_orderedInsert]
    simp only [sortQ] at ih
    rw [ih]

theorem sortQ_sorted (l : List ℤ) : (sortQ l).Sorted (· ≤ ·) := by
  rw [sortQ_eq_insertionSort]; exact List.sorted_insertionSort _ l

theorem sortQ_perm (l : List ℤ) : (sortQ l).Perm l := by
  rw [sortQ_eq_insertionSort]; exact List.perm_insertionSort _ l

/-! ## Claim C9: percentile computation -/

/-- C9: percentiles are computed on the sorted delay list (sorting yields a
sorted permutation of the data) by linear interpolation between the two
nearest ranks; P50 of `[1,2,3,4]` equals 2.5, and P99 of any single-element
list equals that element. -/
theorem percentile_interpolated_semantics :
    (∀ l : List ℤ, (sortQ l).Sorted (· ≤ ·) ∧ (sortQ l).Perm l) ∧
    percentileInterp 50 [1, 2, 3, 4] = 5 / 2 ∧
    (∀ x : ℤ, percentileInterp 99 [x] = (x : ℚ)) := by
  refine ⟨fun l => ⟨sortQ_sorted l, sortQ_perm l⟩, ?_, fun x => ?_⟩
  · have hs : sortQ [1, 2, 3, 4] = [(1 : ℤ), 2, 3, 4] := by decide
    simp only [percentileInterp, hs]
    norm_num [List.getD]
  · simp only [percentileInterp, sortQ, List.foldr, insertSorted]
    norm_num

/-! ## Claim C8: the delay distribution -/

/-- C8: every task that went through dispatch (Completed or Failed)
contributes its queueing delay `serviceStart - queueEntry` to the delay
distribution; Rejected tasks contribute nothing to it and are counted in
the separate rejection count. -/
theorem queuing_delay_distribution (tasks : List Task) :
    calculate_queuing_times tasks =
      (tasks.filter fun t =>
        decide (t.state = .completed) || decide (t.state = .failed)).map
        (fun t => t.serviceStart - t.queueEntry) ∧
    calculate_queuing_times (tasks.filter fun t => decide (t.state = .rejected)) = [] ∧
    ∀ ps, (calculate_simulation_statistics tasks ps).rejectedCount =
      (tasks.filter fun t => decide (t.state = .rejected)).length := by
  refine ⟨?_, ?_, ?_⟩
  · induction tasks with
    | nil => rfl
    | cons t rest ih =>
      cases h : t.state <;>
        simp [calculate_queuing_times, List.filter_cons, h, ih]
  · induction tasks with
    | nil => rfl
    | cons t rest ih =>
      cases h : t.state <;>
        simp [calculate_queuing_times, List.filter_cons, h, ih]
  · intro ps
    simp [calculate_simulation_statistics, countState, List.countP_eq_length_filter]

/-! ## Claim C7: the statistics report -/

theorem usageOf_bumpUsage (m : List (Nat × Nat)) (k e : Nat) :
    usageOf (bumpUsage m k) e = usageOf m e + (if e = k then 1 else 0) := by
  induction m with
  | nil =>
    by_cases h : e = k <;> simp [bumpUsage, usageOf, h]
  | cons hd rest ih =>
    obtain ⟨a, c⟩ := hd
    by_cases h1 : a = k
    · subst h1
      by_cases h2 : e = a <;> simp [bumpUsage, usageOf, h2]
    · by_cases h2 : e = a
      · subst h2
        simp [bumpUsage, usageOf, h1, Ne.symm h1]
      · simp [bumpUsage, usageOf, h1, h2, ih]

theorem usageOf_foldl (ts : List Task) (m : List (Nat × Nat)) (e : Nat) :
    usageOf (ts.foldl (fun m t =>
      match t.state, t.usedApi with
      | .completed, some a => bumpUsage m a
      | _, _ => m) m) e =
    usageOf m e +
      ts.countP (fun t => decide (t.state = .completed ∧ t.usedApi = some e)) := by
  induction ts generalizing m with
  | nil => simp
  | cons t rest ih =>
    simp only [List.foldl_cons, List.countP_cons, ih]
    cases h1 : t.state <;> cases h2 : t.usedApi <;>
      simp only [h1, h2, usageOf_bumpUsage]
    case completed.some a =>
      rcases eq_or_ne e a with h4 | h4
      · subst h4
        simp
        omega
      · rw [if_neg h4, if_neg (by simp [Ne.symm h4])]
        omega
    all_goals simp [h1, h2]

/-- C7: for every terminal task list, the statistics report contains the
total input count, the completed count, the rejected count, the failed
count, the mean queueing delay, the requested percentiles, and a
per-endpoint usage histogram counting the Completed tasks that used each
endpoint id. -/
theorem statistics_report_contents (tasks : List Task) (ps : List Nat) :
    (calculate_simulation_statistics tasks ps).total = tasks.length ∧
    (calculate_simulation_statistics tasks ps).completedCount =
      (tasks.filter fun t => decide (t.state = .completed)).length ∧
    (calculate_simulation_statistics tasks ps).rejectedCount =
      (tasks.filter fun t => decide (t.state = .rejected)).length ∧
    (calculate_simulation_statistics tasks ps).failedCount =
      (tasks.filter fun t => decide (t.state = .failed)).length ∧
    (calculate_queuing_times tasks ≠ [] →
      (calculate_simulation_statistics tasks ps).meanDelay =
        (calculate_queuing_times tasks).sum / ((calculate_queuing_times tasks).length : ℚ)) ∧
    (calculate_simulation_statistics tasks ps).percentiles =
      ps.map (fun p => (p, percentileInterp p (calculate_queuing_times tasks))) ∧
    ∀ e, usageOf (calculate_simulation_statistics tasks ps).apiUsage e =
      (tasks.filter fun t =>
        decide (t.state = .completed ∧ t.usedApi = some e)).length := by
  refine ⟨rfl, ?_, ?_, ?_, ?_, rfl, ?_⟩
  · simp [calculate_simulation_statistics, countState, List.countP_eq_length_filter]
  · simp [calculate_simulation_statistics, countState, List.countP_eq_length_filter]
  · simp [calculate_simulation_statistics, countState, List.countP_eq_length_filter]
  · intro h
    have hlen : (calculate_queuing_times tasks).length ≠ 0 := by
      simpa [List.length_eq_zero] using h
    simp [calculate_simulation_statistics, hlen]
  · intro e
    have := usageOf_foldl tasks [] e
    simp only [calculate_simulation_statistics, apiUsageCounts]
    rw [this]
    simp [usageOf, List.countP_eq_length_filter]

/-- Witness for C7 at a one-task list: the total and the mean-delay
characterization hold concretely. -/
theorem statistics_report_contents_witness :
    (calculate_simulation_statistics [⟨0, 0, 5, 0, 3, 8, .completed, some 0⟩] [50]).total
      = 1 ∧
    (calculate_simulation_statistics [⟨0, 0, 5, 0, 3, 8, .completed, some 0⟩] [50]).meanDelay
      = (calculate_queuing_times [⟨0, 0, 5, 0, 3, 8, .completed, some 0⟩]).sum /
        ((calculate_queuing_times [⟨0, 0, 5, 0, 3, 8, .completed, some 0⟩]).length : ℚ) := by
  have h := statistics_report_contents [⟨0, 0, 5, 0, 3, 8, .completed, some 0⟩] [50]
  exact ⟨h.1, h.2.2.2.2.1 (by decide)⟩

/-! ## Claim C10: configuration validation -/

/-- C10: on malformed input — a negative service duration, a non-positive
worker count, a non-positive endpoint count, or a negative rate limit —
the engine refuses to start the run: `runSystem` returns a configuration
error, runs no simulation step and produces no statistics. -/
theorem malformed_config_refused (cfg : SimConfig) (tasks : List Task) (ps : List Nat)
    (h : cfg.numWorkers ≤ 0 ∨ cfg.numEndpoints ≤ 0 ∨ cfg.rpmLimit < 0 ∨
      ∃ t ∈ tasks, t.duration < 0) :
    runSystem cfg tasks ps = .error "invalid configuration" := by
  have hv : ¬ (configValid cfg tasks = true) := by
    intro hall
    simp only [configValid, Bool.and_eq_true, decide_eq_true_eq, List.all_eq_true] at hall
    obtain ⟨⟨⟨h1, h2⟩, h3⟩, h4⟩ := hall
    rcases h with h | h | h | ⟨t, ht, hneg⟩
    · omega
    · omega
    · omega
    · have := h4 t ht
      omega
  rw [runSystem, if_neg hv]

/-- Witness for C10 at a concrete malformed configuration (zero workers). -/
theorem malformed_config_refused_witness :
    runSystem ⟨0, none, 5, 60⟩ [] [50] = .error "invalid configuration" :=
  malformed_config_refused ⟨0, none, 5, 60⟩ [] [50] (Or.inl (by decide))

/-! ## Claim C4: fallback order of the rate-limited client -/

theorem grantsAt_ge_length {l : List Endpoint} {now : ℤ} {j : Nat}
    (h : l.length ≤ j) : ¬ grantsAt l now j := by
  simp [grantsAt, List.getElem?_eq_none h]

theorem acquireAux_none_iff (now : ℤ) (l : List Endpoint) :
    (acquireAux now l).1 = none ↔ ∀ j, ¬ grantsAt l now j := by
  induction l with
  | nil =>
    constructor
    · intro _ j
      simp [grantsAt]
    · intro _
      rfl
  | cons e rest ih =>
    rcases hadm : e.tryAdmit now with ⟨g, e2⟩
    cases g with
    | true =>
      simp only [acquireAux, hadm]
      constructor
      · intro hm
        cases hm
      · intro hall
        exact absurd (show grantsAt (e :: rest) now 0 by simp [grantsAt, hadm]) (hall 0)
    | false =>
      simp only [acquireAux, hadm]
      constructor
      · intro hm j
        have hrest := ih.1 (by simpa using hm)
        match j with
        | 0 => simp [grantsAt, hadm]
        | j + 1 => simpa [grantsAt] using hrest j
      · intro hall
        simp only [Option.map_eq_none']
        exact ih.2 fun j => by simpa [grantsAt] using hall (j + 1)

theorem acquireAux_some_iff (now : ℤ) (l : List Endpoint) (i : Nat) :
    (acquireAux now l).1 = some i ↔
      (grantsAt l now i ∧ ∀ j < i, ¬ grantsAt l now j) := by
  induction l generalizing i with
  | nil =>
    simp only [acquireAux]
    constructor
    · intro hm; cases hm
    · rintro ⟨hg, -⟩; exact absurd hg (by simp [grantsAt])
  | cons e rest ih =>
    rcases hadm : e.tryAdmit now with ⟨g, e2⟩
    cases g with
    | false =>
      simp only [acquireAux, hadm]
      match i with
      | 0 =>
        constructor
        · intro hm
          simp only [Option.map_eq_some'] at hm
          obtain ⟨k, -, hk⟩ := hm
          cases hk
        · rintro ⟨hg, -⟩
          have : (e.tryAdmit now).1 = true := by simpa [grantsAt] using hg
          rw [hadm] at this
          cases this
      | i + 1 =>
        constructor
        · intro hm
          simp only [Option.map_eq_some'] at hm
          obtain ⟨k, hk, hki⟩ := hm
          have hk' := (ih k).1 hk
          have hik : k = i := by omega
          subst hik
          refine ⟨by simpa [grantsAt] using hk'.1, ?_⟩
          intro j hj
          match j with
          | 0 => simp [grantsAt, hadm]
          | j + 1 =>
            have := hk'.2 j (by omega)
            simpa [grantsAt] using this
        · rintro ⟨hg, hmin⟩
          have : (acquireAux now rest).1 = some i := by
            refine (ih i).2 ⟨by simpa [grantsAt] using hg, ?_⟩
            intro j hj
            have := hmin (j + 1) (by omega)
            simpa [grantsAt] using this
          simp [this]
    | true =>
      simp only [acquireAux, hadm]
      match i with
      | 0 =>
        constructor
        · intro hm
          exact ⟨by simp [grantsAt, hadm], fun j hj => absurd hj (by omega)⟩
        · rintro ⟨-, -⟩
          rfl
      | i + 1 =>
        constructor
        · intro hm
          cases hm
        · rintro ⟨-, hmin⟩
          exact absurd (show grantsAt (e :: rest) now 0 by simp [grantsAt, hadm])
            (hmin 0 (by omega))

/-- C4: `acquire(now)` tries the endpoints in fixed priority order from
index 0 on every call, returns the lowest-indexed endpoint whose
`tryAdmit(now)` grants, and returns exhausted exactly when every endpoint
denies. -/
theorem acquire_lowest_available (c : APIClient) (now : ℤ) :
    (∀ i, (c.acquire now).1 = some i ↔
      (grantsAt c.endpoints now i ∧ ∀ j < i, ¬ grantsAt c.endpoints now j)) ∧
    ((c.acquire now).1 = none ↔ ∀ j, ¬ grantsAt c.endpoints now j) := by
  constructor
  · intro i
    simpa [APIClient.acquire] using acquireAux_some_iff now c.endpoints i
  · simpa [APIClient.acquire] using acquireAux_none_iff now c.endpoints

/-- Witness for C4: with a saturated first endpoint and a free second one,
`acquire` selects endpoint index 1. -/
theorem acquire_lowest_available_witness :
    ((⟨[⟨0, 0, 0⟩, ⟨1, 0, 0⟩]⟩ : APIClient).acquire 0).1 = some 1 :=
  ((acquire_lowest_available ⟨[⟨0, 0, 0⟩, ⟨1, 0, 0⟩]⟩ 0).1 1).2
    ⟨by decide, by intro j hj; interval_cases j; decide⟩

/-! ## Claim C5: zero-cost failure on resource exhaustion -/

/-- C5: when an idle worker starts service and the rate-limited client is
exhausted, the task is marked Failed with service-start = service-end = now
and no service duration consumed, the worker pool (and hence the idle
worker) is untouched, and the failure is recorded on the task in the
finished list — never thrown. -/
theorem exhausted_dispatch_fails_task (s : SimState) (t : ℤ) (task0 : Task) (i : Nat)
    (hidle : findIdle s.workers = some i)
    (hex : ∀ j, ¬ grantsAt s.client.endpoints t j) :
    (handleArrival s t task0).workers = s.workers ∧
    findIdle (handleArrival s t task0).workers = some i ∧
    (handleArrival s t task0).queue = s.queue ∧
    (handleArrival s t task0).events = s.events ∧
    (handleArrival s t task0).finished = s.finished ++
      [{ task0 with
          queueEntry := t
          serviceStart := t
          serviceEnd := t
          state := TaskState.failed
          usedApi := none }] := by
  rcases hacq : s.client.acquire t with ⟨r, c2⟩
  have hr : r = none := by
    have h1 : (s.client.acquire t).1 = none := by
      simpa [APIClient.acquire] using (acquireAux_none_iff t s.client.endpoints).2 hex
    rw [hacq] at h1
    exact h1
  subst hr
  refine ⟨?_, ?_, ?_, ?_, ?_⟩ <;>
    simp [handleArrival, hidle, startServiceCore, hacq]

/-- Witness for C5 at a concrete idle worker and an exhausted
(zero-limit) endpoint. -/
theorem exhausted_dispatch_fails_task_witness :
    (handleArrival ⟨[], ⟨[], none⟩, [⟨none⟩], ⟨[⟨0, 0, 0⟩]⟩, [], [], [], 0⟩
        0 ⟨7, 0, 5, 0, 0, 0, .arrived, none⟩).workers = [⟨none⟩] ∧
    (handleArrival ⟨[], ⟨[], none⟩, [⟨none⟩], ⟨[⟨0, 0, 0⟩]⟩, [], [], [], 0⟩
        0 ⟨7, 0, 5, 0, 0, 0, .arrived, none⟩).finished =
      [⟨7, 0, 5, 0, 0, 0, .failed, none⟩] := by
  have h := exhausted_dispatch_fails_task
    ⟨[], ⟨[], none⟩, [⟨none⟩], ⟨[⟨0, 0, 0⟩]⟩, [], [], [], 0⟩ 0
    ⟨7, 0, 5, 0, 0, 0, .arrived, none⟩ 0 (by decide)
    (by
      intro j
      match j with
      | 0 => decide
      | j + 1 => exact grantsAt_ge_length (by simp)
      )
  exact ⟨h.1, h.2.2.2.2⟩

/-! ## Claim C3: fixed-window rate limiting -/

theorem windowOf_mono {a b : ℤ} (h : a ≤ b) : windowOf a ≤ windowOf b :=
  Int.ediv_le_ediv (by norm_num) h

theorem windowOf_nonneg {t : ℤ} (h : 0 ≤ t) : 0 ≤ windowOf t :=
  Int.ediv_nonneg h (by norm_num)

theorem grantedInWindow_cons (t : ℤ) (b : Bool) (ts : List ℤ) (res : List Bool) (W : ℤ) :
    grantedInWindow (t :: ts) (b :: res) W =
      grantedInWindow ts res W + (if decide (windowOf t = W) && b then 1 else 0) := by
  simp [grantedInWindow, List.countP_cons]

theorem admitTrace_cons (s : Endpoint) (t : ℤ) (rest : List ℤ) :
    admitTrace s (t :: rest) =
      ((s.tryAdmit t).1 :: (admitTrace (s.tryAdmit t).2 rest).1,
        (admitTrace (s.tryAdmit t).2 rest).2) := by
  simp [admitTrace]

theorem admitTrace_granted_le (W : ℤ) (times : List ℤ) : ∀ s : Endpoint,
    times.Pairwise (· ≤ ·) → (∀ t ∈ times, s.windowIdx ≤ windowOf t) →
    grantedInWindow times (admitTrace s times).1 W ≤
      (if W < s.windowIdx then 0
       else if W = s.windowIdx then s.rpmLimit - s.count
       else s.rpmLimit) := by
  induction times with
  | nil =>
    intro s _ _
    simp [admitTrace, grantedInWindow]
  | cons t rest ih =>
    intro s hmono hge
    have hmt : ∀ x ∈ rest, t ≤ x := (List.pairwise_cons.1 hmono).1
    have hmr : rest.Pairwise (· ≤ ·) := (List.pairwise_cons.1 hmono).2
    have hget : s.windowIdx ≤ windowOf t := hge t (by simp)
    have hgew : ∀ x ∈ rest, windowOf t ≤ windowOf x :=
      fun x hx => windowOf_mono (hmt x hx)
    rw [admitTrace_cons, grantedInWindow_cons]
    by_cases hw : s.windowIdx = windowOf t
    · by_cases hc : s.count < s.rpmLimit
      · have hadm : s.tryAdmit t = (true, ⟨s.rpmLimit, s.windowIdx, s.count + 1⟩) := by
          simp [Endpoint.tryAdmit, hw, hc]
        rw [hadm]
        have hb := ih ⟨s.rpmLimit, s.windowIdx, s.count + 1⟩ hmr
          (fun x hx => le_trans hget (hgew x hx))
        dsimp only at hb ⊢
        simp only [Bool.and_true, decide_eq_true_eq] at hb ⊢
        split_ifs at hb ⊢ <;> omega
      · have hadm : s.tryAdmit t = (false, s) := by
          simp [Endpoint.tryAdmit, hw, hc]
        rw [hadm]
        have hb := ih s hmr (fun x hx => le_trans hget (hgew x hx))
        simp only [Bool.and_false, if_false, Nat.add_zero]
        exact hb
    · have hlt : s.windowIdx < windowOf t := lt_of_le_of_ne hget hw
      by_cases hc : 0 < s.rpmLimit
      · have hadm : s.tryAdmit t = (true, ⟨s.rpmLimit, windowOf t, 1⟩) := by
          simp [Endpoint.tryAdmit, hw, hc]
        rw [hadm]
        have hb := ih ⟨s.rpmLimit, windowOf t, 1⟩ hmr hgew
        dsimp only at hb ⊢
        simp only [Bool.and_true, decide_eq_true_eq] at hb ⊢
        split_ifs at hb ⊢ <;> omega
      · have hadm : s.tryAdmit t = (false, ⟨s.rpmLimit, windowOf t, 0⟩) := by
          simp [Endpoint.tryAdmit, hw, hc]
        rw [hadm]
        have hb := ih ⟨s.rpmLimit, windowOf t, 0⟩ hmr hgew
        dsimp only at hb ⊢
        simp only [Bool.and_false, Bool.false_eq_true, if_false, Nat.add_zero]
        split_ifs at hb ⊢ <;> omega

/-- C3: a fresh endpoint fed any monotone sequence of `tryAdmit(now)` calls
with non-negative timestamps admits at most `rpmLimit` calls whose
timestamps fall inside any one fixed 60-unit window anchored at multiples
of 60 from simulation start; moreover `tryAdmit` stores the current window
index `floor(now / 60)` (resetting the counter on a window change) and
grants exactly while the window's counter is below `rpmLimit`. -/
theorem endpoint_rate_limit (rpm : Nat) (times : List ℤ) (W : ℤ)
    (hmono : times.Pairwise (· ≤ ·)) (hnn : ∀ t ∈ times, 0 ≤ t) :
    grantedInWindow times (admitTrace ⟨rpm, 0, 0⟩ times).1 W ≤ rpm ∧
    ∀ (e : Endpoint) (now : ℤ),
      (e.tryAdmit now).2.windowIdx = windowOf now ∧
      ((e.tryAdmit now).1 = true ↔
        (if e.windowIdx = windowOf now then e.count else 0) < e.rpmLimit) := by
  constructor
  · have hb := admitTrace_granted_le W times ⟨rpm, 0, 0⟩ hmono
      (fun t ht => windowOf_nonneg (hnn t ht))
    dsimp only at hb
    split_ifs at hb <;> omega
  · intro e now
    by_cases hw : e.windowIdx = windowOf now
    · by_cases hc : e.count < e.rpmLimit
      · have hadm : e.tryAdmit now = (true, ⟨e.rpmLimit, e.windowIdx, e.count + 1⟩) := by
          simp [Endpoint.tryAdmit, hw, hc]
        rw [hadm]
        exact ⟨hw, by simp [if_pos hw, hc]⟩
      · have hadm : e.tryAdmit now = (false, e) := by
          simp [Endpoint.tryAdmit, hw, hc]
        rw [hadm]
        exact ⟨hw, by simp [if_pos hw, hc]⟩
    · by_cases hc : 0 < e.rpmLimit
      · have hadm : e.tryAdmit now = (true, ⟨e.rpmLimit, windowOf now, 1⟩) := by
          simp [Endpoint.tryAdmit, hw, hc]
        rw [hadm]
        exact ⟨rfl, by simp [if_neg hw, hc]⟩
      · have hadm : e.tryAdmit now = (false, ⟨e.rpmLimit, windowOf now, 0⟩) := by
          simp [Endpoint.tryAdmit, hw, hc]
        rw [hadm]
        exact ⟨rfl, by simp [if_neg hw, hc]⟩

/-- Witness for C3: limit 1, calls at times 0, 10 and 70 — window 0 admits
at most one call. -/
theorem endpoint_rate_limit_witness :
    grantedInWindow [0, 10, 70] (admitTrace ⟨1, 0, 0⟩ [0, 10, 70]).1 0 ≤ 1 :=
  (endpoint_rate_limit 1 [0, 10, 70] 0 (by decide) (by decide)).1

/-! ## Event selection: order lemmas and the specification of selectMin -/

theorem evLE_refl (a : Event) : evLE a a := Or.inr ⟨rfl, le_rfl⟩

theorem evLE_total (a b : Event) : evLE a b ∨ evLE b a := by
  unfold evLE
  rcases lt_trichotomy a.time b.time with h | h | h
  · exact Or.inl (Or.inl h)
  · rcases le_total a.prio b.prio with h2 | h2
    · exact Or.inl (Or.inr ⟨h, h2⟩)
    · exact Or.inr (Or.inr ⟨h.symm, h2⟩)
  · exact Or.inr (Or.inl h)

theorem evLE_of_not {a b : Event} (h : ¬ evLE a b) : evLE b a :=
  (evLE_total a b).resolve_left h

theorem evLE_trans {a b c : Event} (h1 : evLE a b) (h2 : evLE b c) : evLE a c := by
  unfold evLE at *
  rcases h1 with h1 | ⟨e1, p1⟩ <;> rcases h2 with h2 | ⟨e2, p2⟩
  · exact Or.inl (lt_trans h1 h2)
  · exact Or.inl (e2 ▸ h1)
  · exact Or.inl (e1 ▸ h2)
  · exact Or.inr ⟨e1.trans e2, le_trans p1 p2⟩

theorem evLE_time {a b : Event} (h : evLE a b) : a.time ≤ b.time := by
  rcases h with h | ⟨h, -⟩
  · exact le_of_lt h
  · exact le_of_eq h

theorem selectMin_eq_none {l : List Event} : selectMin l = none ↔ l = [] := by
  cases l with
  | nil => simp [selectMin]
  | cons e rest =>
    cases hr : selectMin rest with
    | none => simp [selectMin, hr]
    | some p =>
      obtain ⟨m, others⟩ := p
      by_cases hle : evLE e m <;> simp [selectMin, hr, hle]

theorem selectMin_spec : ∀ {l : List Event} {e : Event} {rest : List Event},
    selectMin l = some (e, rest) →
    ∃ l1 l2, l = l1 ++ e :: l2 ∧ rest = l1 ++ l2 ∧
      (∀ x ∈ l1, ¬ evLE x e) ∧ (∀ x ∈ rest, evLE e x) := by
  intro l
  induction l with
  | nil => intro e rest h; cases h
  | cons a tl ih =>
    intro e rest h
    simp only [selectMin] at h
    cases hr : selectMin tl with
    | none =>
      rw [hr] at h
      have htl : tl = [] := selectMin_eq_none.1 hr
      simp only [Option.some.injEq, Prod.mk.injEq] at h
      obtain ⟨rfl, rfl⟩ := h
      exact ⟨[], [], by simp [htl], by simp, by simp, by simp⟩
    | some p =>
      obtain ⟨m, others⟩ := p
      rw [hr] at h
      dsimp only at h
      obtain ⟨l1, l2, htl, hoth, hmax, hmin⟩ := ih hr
      by_cases hle : evLE a m
      · rw [if_pos hle] at h
        simp only [Option.some.injEq, Prod.mk.injEq] at h
        obtain ⟨rfl, rfl⟩ := h
        refine ⟨[], tl, rfl, rfl, by simp, ?_⟩
        intro x hx
        rw [htl] at hx
        rcases List.mem_append.1 hx with hx1 | hx2
        · exact evLE_trans hle (hmin x (by rw [hoth]; exact List.mem_append_left _ hx1))
        · rcases List.mem_cons.1 hx2 with rfl | hx3
          · exact hle
          · exact evLE_trans hle (hmin x (by rw [hoth]; exact List.mem_append_right _ hx3))
      · rw [if_neg hle] at h
        simp only [Option.some.injEq, Prod.mk.injEq] at h
        obtain ⟨rfl, rfl⟩ := h
        refine ⟨a :: l1, l2, by rw [htl]; rfl, by simp [hoth], ?_, ?_⟩
        · intro x hx
          rcases List.mem_cons.1 hx with rfl | hx1
          · exact hle
          · exact hmax x hx1
        · intro x hx
          rcases List.mem_cons.1 hx with rfl | hx1
          · exact evLE_of_not hle
          · exact hmin x hx1

theorem selectMin_perm {l : List Event} {e : Event} {rest : List Event}
    (h : selectMin l = some (e, rest)) : l.Perm (e :: rest) := by
  obtain ⟨l1, l2, rfl, rfl, -, -⟩ := selectMin_spec h
  exact List.perm_middle

theorem selectMin_min {l : List Event} {e : Event} {rest : List Event}
    (h : selectMin l = some (e, rest)) : ∀ x ∈ rest, evLE e x := by
  obtain ⟨-, -, -, -, -, hmin⟩ := selectMin_spec h
  exact hmin

/-! ## Weights, termination measure, run-loop lemmas -/

theorem eventsWeight_cons (e : Event) (l : List Event) :
    eventsWeight (e :: l) = e.weight + eventsWeight l := by
  simp [eventsWeight]

theorem eventsWeight_append (l l' : List Event) :
    eventsWeight (l ++ l') = eventsWeight l + eventsWeight l' := by
  simp [eventsWeight]

theorem eventsWeight_perm {l l' : List Event} (h : l.Perm l') :
    eventsWeight l = eventsWeight l' :=
  List.Perm.sum_eq (h.map Event.weight)

theorem eventsWeight_eq_zero {l : List Event} (h : eventsWeight l = 0) : l = [] := by
  cases l with
  | nil => rfl
  | cons e tl =>
    exfalso
    have h1 : 1 ≤ e.weight := by cases e <;> simp [Event.weight]
    rw [eventsWeight_cons] at h
    omega

/-! ## Behaviour of the building blocks under destructuring -/

theorem tryEnqueue_true {q : FifoQueue} {task : Task} {q' : FifoQueue}
    (h : q.tryEnqueue task = (true, q')) :
    q.hasRoom = true ∧ q' = ⟨q.items ++ [task], q.capacity⟩ := by
  unfold FifoQueue.tryEnqueue at h
  by_cases hr : q.hasRoom
  · rw [if_pos hr] at h
    simp only [Prod.mk.injEq] at h
    exact ⟨hr, h.2.symm⟩
  · rw [if_neg hr] at h
    simp only [Prod.mk.injEq] at h
    exact absurd h.1.symm (by simp)

theorem tryEnqueue_false {q : FifoQueue} {task : Task} {q' : FifoQueue}
    (h : q.tryEnqueue task = (false, q')) :
    q.hasRoom = false ∧ q' = q := by
  unfold FifoQueue.tryEnqueue at h
  by_cases hr : q.hasRoom
  · rw [if_pos hr] at h
    simp only [Prod.mk.injEq] at h
    exact absurd h.1.symm (by simp)
  · rw [if_neg hr] at h
    simp only [Prod.mk.injEq] at h
    exact ⟨by simpa using hr, h.2.symm⟩

theorem hasRoom_iff (q : FifoQueue) :
    q.hasRoom = true ↔ ∀ c, q.capacity = some c → q.size < c := by
  cases hc : q.capacity <;> simp [FifoQueue.hasRoom, hc]

theorem startServiceCore_serving {c : APIClient} {task : Task} {now : ℤ}
    {t' : Task} {done : ℤ} {c' : APIClient}
    (h : startServiceCore c task now = (.serving t' done, c')) :
    ∃ i, (c.acquire now).1 = some i ∧
      t' = { task with serviceStart := now, state := .inService, usedApi := some i } ∧
      done = now + task.duration := by
  unfold startServiceCore at h
  rcases hacq : c.acquire now with ⟨r, c2⟩
  rw [hacq] at h
  cases r with
  | some i =>
    simp only [Prod.mk.injEq, StartOutcome.serving.injEq] at h
    exact ⟨i, rfl, h.1.1.symm, h.1.2.symm⟩
  | none => simp at h

theorem startServiceCore_failed {c : APIClient} {task : Task} {now : ℤ}
    {t' : Task} {c' : APIClient}
    (h : startServiceCore c task now = (.failedT t', c')) :
    (c.acquire now).1 = none ∧
    t' = { task with
            serviceStart := now
            serviceEnd := now
            state := TaskState.failed
            usedApi := none } := by
  unfold startServiceCore at h
  rcases hacq : c.acquire now with ⟨r, c2⟩
  rw [hacq] at h
  cases r with
  | some i => simp at h
  | none =>
    simp only [Prod.mk.injEq, StartOutcome.failedT.injEq] at h
    exact ⟨rfl, h.1.symm⟩

/-! ## Drain lemmas -/

theorem drainAux_ids (c : APIClient) (now : ℤ) : ∀ items : List Task,
    items.map Task.id = (drainAux c now items).startedLog.map Task.id ++
      (drainAux c now items).remaining.map Task.id := by
  intro items
  induction items generalizing c with
  | nil => simp [drainAux]
  | cons task rest ih =>
    rcases hss : startServiceCore c task now with ⟨out, c2⟩
    cases out with
    | serving t' done =>
      obtain ⟨i, -, rfl, -⟩ := startServiceCore_serving hss
      simp [drainAux, hss]
    | failedT t' =>
      obtain ⟨-, rfl⟩ := startServiceCore_failed hss
      simpa [drainAux, hss] using ih c2

theorem drainAux_startedLog (c : APIClient) (now : ℤ) : ∀ items : List Task,
    (drainAux c now items).startedLog =
      (drainAux c now items).failedDone ++ servingList (drainAux c now items).serving := by
  intro items
  induction items generalizing c with
  | nil => simp [drainAux, servingList]
  | cons task rest ih =>
    rcases hss : startServiceCore c task now with ⟨out, c2⟩
    cases out with
    | serving t' done => simp [drainAux, hss, servingList]
    | failedT t' => simpa [drainAux, hss] using ih c2

theorem drainAux_failed_state (c : APIClient) (now : ℤ) : ∀ items : List Task,
    ∀ t' ∈ (drainAux c now items).failedDone, t'.state = .failed := by
  intro items
  induction items generalizing c with
  | nil => simp [drainAux]
  | cons task rest ih =>
    rcases hss : startServiceCore c task now with ⟨out, c2⟩
    cases out with
    | serving t' done => simp [drainAux, hss]
    | failedT t' =>
      obtain ⟨-, rfl⟩ := startServiceCore_failed hss
      intro q hq
      simp only [drainAux, hss] at hq
      rcases List.mem_cons.1 hq with rfl | hq2
      · rfl
      · exact ih c2 q hq2

theorem drainAux_none_remaining (c : APIClient) (now : ℤ) : ∀ items : List Task,
    (drainAux c now items).serving = none → (drainAux c now items).remaining = [] := by
  intro items
  induction items generalizing c with
  | nil => simp [drainAux]
  | cons task rest ih =>
    rcases hss : startServiceCore c task now with ⟨out, c2⟩
    cases out with
    | serving t' done => simp [drainAux, hss]
    | failedT t' =>
      intro hn
      simp only [drainAux, hss] at hn ⊢
      exact ih c2 hn

theorem drainAux_serving_src (c : APIClient) (now : ℤ) : ∀ items : List Task,
    ∀ t' : Task, ∀ d : ℤ, (drainAux c now items).serving = some (t', d) →
      t'.state = .inService ∧ t'.serviceStart = now ∧
        ∃ src ∈ items, t'.id = src.id ∧ d = now + src.duration := by
  intro items
  induction items generalizing c with
  | nil => simp [drainAux]
  | cons task rest ih =>
    rcases hss : startServiceCore c task now with ⟨out, c2⟩
    cases out with
    | serving t0 done =>
      intro t' d hs
      simp only [drainAux, hss, Option.some.injEq, Prod.mk.injEq] at hs
      obtain ⟨rfl, rfl⟩ := hs
      obtain ⟨i, -, rfl, rfl⟩ := startServiceCore_serving hss
      exact ⟨rfl, rfl, task, by simp, rfl, rfl⟩
    | failedT t0 =>
      intro t' d hs
      simp only [drainAux, hss] at hs
      obtain ⟨h1, h2, src, hsrc, h3⟩ := ih c2 t' d hs
      exact ⟨h1, h2, src, List.mem_cons_of_mem _ hsrc, h3⟩

theorem drainAux_started_time (c : APIClient) (now : ℤ) : ∀ items : List Task,
    ∀ q ∈ (drainAux c now items).startedLog, q.serviceStart = now := by
  intro items
  induction items generalizing c with
  | nil => simp [drainAux]
  | cons task rest ih =>
    rcases hss : startServiceCore c task now with ⟨out, c2⟩
    cases out with
    | serving t0 done =>
      obtain ⟨i, -, rfl, -⟩ := startServiceCore_serving hss
      simp [drainAux, hss]
    | failedT t0 =>
      obtain ⟨-, rfl⟩ := startServiceCore_failed hss
      intro q hq
      simp only [drainAux, hss] at hq
      rcases List.mem_cons.1 hq with rfl | hq2
      · rfl
      · exact ih c2 q hq2

theorem drainAux_remaining_subset (c : APIClient) (now : ℤ) : ∀ items : List Task,
    ∀ x ∈ (drainAux c now items).remaining, x ∈ items := by
  intro items
  induction items generalizing c with
  | nil => simp [drainAux]
  | cons task rest ih =>
    rcases hss : startServiceCore c task now with ⟨out, c2⟩
    cases out with
    | serving t0 done =>
      intro x hx
      simp only [drainAux, hss] at hx
      exact List.mem_cons_of_mem _ hx
    | failedT t0 =>
      intro x hx
      simp only [drainAux, hss] at hx
      exact List.mem_cons_of_mem _ (ih c2 x hx)

theorem drainAux_length (c : APIClient) (now : ℤ) (items : List Task) :
    items.length = (drainAux c now items).startedLog.length +
      (drainAux c now items).remaining.length := by
  have := congrArg List.length (drainAux_ids c now items)
  simpa using this

/-! ## The termination measure decreases at every processed event -/

theorem eventsWeight_nil : eventsWeight [] = 0 := rfl

theorem handleArrival_measure (s : SimState) (t : ℤ) (task0 : Task) :
    simMeasure (handleArrival s t task0) ≤ simMeasure s + 1 := by
  unfold handleArrival
  dsimp only
  split
  · split
    · simp only [simMeasure, eventsWeight_append, eventsWeight_cons, eventsWeight_nil,
        Event.weight]
      omega
    · simp [simMeasure]
  · split
    · rename_i q' heq
      obtain ⟨-, rfl⟩ := tryEnqueue_true heq
      simp only [simMeasure, FifoQueue.size, List.length_append, List.length_cons,
        List.length_nil]
      omega
    · simp [simMeasure]

theorem handleCompletion_measure (s : SimState) (t : ℤ) (i : Nat) :
    simMeasure (handleCompletion s t i) ≤ simMeasure s := by
  unfold handleCompletion
  dsimp only
  split
  · split
    · have hlen := drainAux_length s.client t s.queue.items
      split
      · rename_i t' done heq
        have hsl := drainAux_startedLog s.client t s.queue.items
        have h1 : 1 ≤ (drainAux s.client t s.queue.items).startedLog.length := by
          rw [hsl, heq]
          simp [servingList]
        simp only [simMeasure, eventsWeight_append, eventsWeight_cons, eventsWeight_nil,
          Event.weight]
        omega
      · simp only [simMeasure]
        omega
    · simp [simMeasure]
  · simp [simMeasure]

theorem simMeasure_step_lt {s : SimState} (h : s.events ≠ []) :
    simMeasure (step s) < simMeasure s := by
  cases hsel : selectMin s.events with
  | none => exact absurd (selectMin_eq_none.1 hsel) h
  | some p =>
    obtain ⟨ev, rest⟩ := p
    have hW : eventsWeight s.events = ev.weight + eventsWeight rest := by
      rw [eventsWeight_perm (selectMin_perm hsel), eventsWeight_cons]
    unfold step
    rw [hsel]
    cases ev with
    | arrival t task =>
      show simMeasure (handleArrival { s with events := rest } t task) < simMeasure s
      have hle := handleArrival_measure { s with events := rest } t task
      have hm : simMeasure { s with events := rest } =
          eventsWeight rest + s.queue.items.length := rfl
      have hms : simMeasure s = eventsWeight s.events + s.queue.items.length := rfl
      simp only [Event.weight] at hW
      omega
    | completion t i =>
      show simMeasure (handleCompletion { s with events := rest } t i) < simMeasure s
      have hle := handleCompletion_measure { s with events := rest } t i
      have hm : simMeasure { s with events := rest } =
          eventsWeight rest + s.queue.items.length := rfl
      have hms : simMeasure s = eventsWeight s.events + s.queue.items.length := rfl
      simp only [Event.weight] at hW
      omega

/-! ## The run loop drains the event collection and preserves invariants -/

theorem runFuel_events_nil : ∀ (n : Nat) (s : SimState),
    simMeasure s ≤ n → (runFuel n s).events = [] := by
  intro n
  induction n with
  | zero =>
    intro s h
    have h0 : eventsWeight s.events = 0 := by
      have : simMeasure s = eventsWeight s.events + s.queue.items.length := rfl
      omega
    simpa [runFuel] using eventsWeight_eq_zero h0
  | succ n ih =>
    intro s h
    by_cases he : s.events = []
    · simp [runFuel, he]
    · have hlt := simMeasure_step_lt he
      simp only [runFuel, if_neg he]
      exact ih _ (by omega)

theorem run_events_nil (s : SimState) : (run s).events = [] :=
  runFuel_events_nil _ s le_rfl

theorem runFuel_preserves {P : SimState → Prop}
    (hstep : ∀ s, s.events ≠ [] → P s → P (step s)) :
    ∀ (n : Nat) (s : SimState), P s → P (runFuel n s) := by
  intro n
  induction n with
  | zero =>
    intro s h
    simpa [runFuel] using h
  | succ n ih =>
    intro s h
    by_cases he : s.events = []
    · simpa [runFuel, he] using h
    · simp only [runFuel, if_neg he]
      exact ih _ (hstep s he h)

theorem run_preserves {P : SimState → Prop}
    (hstep : ∀ s, s.events ≠ [] → P s → P (step s)) (s : SimState) (h : P s) :
    P (run s) :=
  runFuel_preserves hstep _ s h

/-! ## Claim C2: the admission queue never exceeds its capacity -/

theorem capOk_handleArrival (s : SimState) (t : ℤ) (task0 : Task) (h : capOk s) :
    capOk (handleArrival s t task0) := by
  unfold handleArrival
  dsimp only
  split
  · split
    · exact h
    · exact h
  · split
    · rename_i q' heq
      obtain ⟨hroom, rfl⟩ := tryEnqueue_true heq
      unfold capOk at h ⊢
      dsimp only
      cases hc : s.queue.capacity with
      | none => trivial
      | some c =>
        rw [hc] at h
        have hlt := (hasRoom_iff s.queue).1 hroom c hc
        unfold FifoQueue.size at hlt
        simp only [List.length_append, List.length_cons, List.length_nil]
        omega
    · exact h

theorem capOk_handleCompletion (s : SimState) (t : ℤ) (i : Nat) (h : capOk s) :
    capOk (handleCompletion s t i) := by
  unfold handleCompletion
  dsimp only
  split
  · split
    · have hlen := drainAux_length s.client t s.queue.items
      split
      · unfold capOk at h ⊢
        dsimp only
        cases hc : s.queue.capacity with
        | none => trivial
        | some c =>
          rw [hc] at h
          omega
      · unfold capOk at h ⊢
        dsimp only
        cases hc : s.queue.capacity with
        | none => trivial
        | some c =>
          rw [hc] at h
          omega
    · exact h
  · exact h

theorem capOk_step (s : SimState) (h : capOk s) : capOk (step s) := by
  unfold step
  cases hsel : selectMin s.events with
  | none => exact h
  | some p =>
    obtain ⟨ev, rest⟩ := p
    cases ev with
    | arrival t task =>
      exact capOk_handleArrival { s with events := rest } t task h
    | completion t i =>
      exact capOk_handleCompletion { s with events := rest } t i h

/-- C2: the admission queue's length never exceeds its configured capacity
in any reachable state of any run; `tryEnqueue` appends to the tail and
accepts exactly when `size < capacity` (always when unbounded), otherwise
it rejects without mutating the queue; and the engine marks a task
Rejected when it arrives with no idle worker and a full queue. -/
theorem admission_queue_capacity :
    (∀ (q : FifoQueue) (task : Task),
      (q.hasRoom = true ↔ ∀ c, q.capacity = some c → q.size < c) ∧
      (q.hasRoom = true → q.tryEnqueue task = (true, ⟨q.items ++ [task], q.capacity⟩)) ∧
      (q.hasRoom = false → q.tryEnqueue task = (false, q))) ∧
    (∀ (s : SimState) (t : ℤ) (task0 : Task), findIdle s.workers = none →
      s.queue.hasRoom = false →
      (handleArrival s t task0).queue = s.queue ∧
      (handleArrival s t task0).finished = s.finished ++
        [{ task0 with queueEntry := t, state := TaskState.rejected }]) ∧
    ∀ (tasks : List Task) (nw : Nat) (cap : Option Nat) (na rpm : Nat) (s : SimState),
      Reach (initState tasks nw cap na rpm) s → capOk s := by
  refine ⟨?_, ?_, ?_⟩
  · intro q task
    refine ⟨hasRoom_iff q, ?_, ?_⟩
    · intro hroom
      unfold FifoQueue.tryEnqueue
      rw [if_pos hroom]
    · intro hroom
      unfold FifoQueue.tryEnqueue
      rw [if_neg (by simp [hroom])]
  · intro s t task0 hfi hroom
    have hte : s.queue.tryEnqueue { task0 with queueEntry := t, state := .queued } =
        (false, s.queue) := by
      unfold FifoQueue.tryEnqueue
      rw [if_neg (by simp [hroom])]
    constructor <;> simp [handleArrival, hfi, hte]
  · intro tasks nw cap na rpm s hr
    induction hr with
    | refl =>
      unfold capOk initState
      cases cap <;> simp
    | tail h ih => exact capOk_step _ ih

/-- Witness for C2: a full zero-capacity queue with a busy worker rejects
an arriving task without touching the queue, and the initial state of a
run satisfies the capacity invariant. -/
theorem admission_queue_capacity_witness :
    (handleArrival ⟨[], ⟨[], some 0⟩, [⟨some (⟨0, 0, 9, 0, 0, 0, .inService, none⟩, 9)⟩],
        ⟨[⟨1, 0, 0⟩]⟩, [], [], [], 0⟩ 0 ⟨3, 0, 2, 0, 0, 0, .arrived, none⟩).finished =
      [⟨3, 0, 2, 0, 0, 0, .rejected, none⟩] ∧
    capOk (initState [] 1 (some 0) 1 60) := by
  constructor
  · have h := (admission_queue_capacity.2.1
      ⟨[], ⟨[], some 0⟩, [⟨some (⟨0, 0, 9, 0, 0, 0, .inService, none⟩, 9)⟩],
        ⟨[⟨1, 0, 0⟩]⟩, [], [], [], 0⟩ 0 ⟨3, 0, 2, 0, 0, 0, .arrived, none⟩
      (by decide) (by decide)).2
    simpa using h
  · exact admission_queue_capacity.2.2 [] 1 (some 0) 1 60 _ Reach.refl

/-! ## Worker-pool and multiset bookkeeping lemmas -/

theorem findIdle_spec : ∀ {ws : List Worker} {i : Nat}, findIdle ws = some i →
    ∃ w, ws[i]? = some w ∧ w.busy = none := by
  intro ws
  induction ws with
  | nil => intro i h; cases h
  | cons w rest ih =>
    intro i h
    simp only [findIdle] at h
    by_cases hw : w.isIdle
    · rw [if_pos hw] at h
      injection h with h1
      subst h1
      exact ⟨w, by simp, by simpa [Worker.isIdle, Option.isNone_iff_eq_none] using hw⟩
    · rw [if_neg hw] at h
      simp only [Option.map_eq_some'] at h
      obtain ⟨j, hj, rfl⟩ := h
      obtain ⟨w2, hw2, hb⟩ := ih hj
      exact ⟨w2, by simpa using hw2, hb⟩

theorem findIdle_none : ∀ {ws : List Worker}, findIdle ws = none →
    ∀ w ∈ ws, w.busy.isSome = true := by
  intro ws
  induction ws with
  | nil => intro _ w hw; cases hw
  | cons w0 rest ih =>
    intro h w hw
    simp only [findIdle] at h
    by_cases hw0 : w0.isIdle
    · rw [if_pos hw0] at h; cases h
    · rw [if_neg hw0] at h
      simp only [Option.map_eq_none'] at h
      rcases List.mem_cons.1 hw with rfl | hw2
      · cases h0 : w.busy with
        | none => exact absurd (by simp [Worker.isIdle, h0]) hw0
        | some p => simp
      · exact ih h w hw2

theorem mem_of_getElem? {ws : List Worker} {i : Nat} {w : Worker}
    (h : ws[i]? = some w) : w ∈ ws := by
  obtain ⟨hlt, rfl⟩ := List.getElem?_eq_some.1 h
  exact List.getElem_mem hlt

theorem set_ne_nil {ws : List Worker} (h : ws ≠ []) (i : Nat) (x : Worker) :
    ws.set i x ≠ [] := by
  cases ws with
  | nil => exact absurd rfl h
  | cons a l => cases i <;> simp

theorem busyAt_set_self {ws : List Worker} {i : Nat} (hi : i < ws.length) (x : Worker) :
    busyAt (ws.set i x) i = x.busy.isSome := by
  unfold busyAt
  rw [List.getElem?_set_self (by simpa using hi)]

theorem busyAt_set_ne {ws : List Worker} {i j : Nat} (h : i ≠ j) (x : Worker) :
    busyAt (ws.set i x) j = busyAt ws j := by
  unfold busyAt
  rw [List.getElem?_set_ne h]

theorem idsOf_append (a b : List Task) : idsOf (a ++ b) = idsOf a + idsOf b := by
  simp [idsOf]

theorem idsOf_cons (t : Task) (l : List Task) : idsOf (t :: l) = t.id ::ₘ idsOf l := by
  simp [idsOf]

theorem idsOf_perm {a b : List Task} (h : a.Perm b) : idsOf a = idsOf b := by
  unfold idsOf
  exact Multiset.coe_eq_coe.2 (h.map _)

theorem busyList_cons_some (w : Worker) (rest : List Worker) (task : Task) (d : ℤ)
    (h : w.busy = some (task, d)) :
    busyList (w :: rest) = task :: busyList rest := by
  simp [busyList, h]

theorem busyList_cons_none (w : Worker) (rest : List Worker) (h : w.busy = none) :
    busyList (w :: rest) = busyList rest := by
  simp [busyList, h]

theorem busyList_set_none : ∀ {ws : List Worker} {i : Nat} {w : Worker}
    {task : Task} {d : ℤ}, ws[i]? = some w → w.busy = some (task, d) →
    idsOf (busyList ws) = task.id ::ₘ idsOf (busyList (ws.set i ⟨none⟩)) := by
  intro ws
  induction ws with
  | nil => intro i w task d h; cases h
  | cons w0 rest ih =>
    intro i w task d hw hb
    cases i with
    | zero =>
      simp only [List.getElem?_cons_zero, Option.some.injEq] at hw
      subst hw
      rw [busyList_cons_some w0 rest task d hb, List.set_cons_zero,
        busyList_cons_none ⟨none⟩ rest rfl, idsOf_cons]
    | succ j =>
      simp only [List.getElem?_cons_succ] at hw
      rw [List.set_cons_succ]
      cases hb0 : w0.busy with
      | some p =>
        obtain ⟨task0, d0⟩ := p
        rw [busyList_cons_some w0 rest task0 d0 hb0,
          busyList_cons_some w0 _ task0 d0 hb0, idsOf_cons, idsOf_cons,
          ih hw hb, Multiset.cons_swap]
      | none =>
        rw [busyList_cons_none w0 rest hb0, busyList_cons_none w0 _ hb0, ih hw hb]

theorem busyList_set_busy : ∀ {ws : List Worker} {i : Nat} {w : Worker},
    ws[i]? = some w → w.busy = none → ∀ (task : Task) (d : ℤ),
    idsOf (busyList (ws.set i ⟨some (task, d)⟩)) = task.id ::ₘ idsOf (busyList ws) := by
  intro ws
  induction ws with
  | nil => intro i w h; cases h
  | cons w0 rest ih =>
    intro i w hw hb task d
    cases i with
    | zero =>
      simp only [List.getElem?_cons_zero, Option.some.injEq] at hw
      subst hw
      rw [List.set_cons_zero, busyList_cons_some ⟨some (task, d)⟩ rest task d rfl,
        busyList_cons_none w0 rest hb, idsOf_cons]
    | succ j =>
      simp only [List.getElem?_cons_succ] at hw
      rw [List.set_cons_succ]
      cases hb0 : w0.busy with
      | some p =>
        obtain ⟨task0, d0⟩ := p
        rw [busyList_cons_some w0 _ task0 d0 hb0,
          busyList_cons_some w0 rest task0 d0 hb0, idsOf_cons, idsOf_cons,
          ih hw hb task d, Multiset.cons_swap]
      | none =>
        rw [busyList_cons_none w0 _ hb0, busyList_cons_none w0 rest hb0, ih hw hb task d]

theorem pendingTasks_append (l l' : List Event) :
    pendingTasks (l ++ l') = pendingTasks l ++ pendingTasks l' :=
  List.filterMap_append l l' _

theorem pendingTasks_arrival_cons (t : ℤ) (task : Task) (l : List Event) :
    pendingTasks (.arrival t task :: l) = task :: pendingTasks l := rfl

theorem pendingTasks_completion_cons (t : ℤ) (i : Nat) (l : List Event) :
    pendingTasks (.completion t i :: l) = pendingTasks l := rfl

theorem pendingTasks_perm {l l' : List Event} (h : l.Perm l') :
    (pendingTasks l).Perm (pendingTasks l') :=
  h.filterMap _

theorem pendingTasks_nil : pendingTasks [] = [] := rfl

theorem idsOf_nil : idsOf [] = 0 := rfl

/-! ## Claim C1: conservation — invariant preservation -/

theorem inv_handleArrival (input : List Task) (s : SimState) (rest : List Event)
    (t : ℤ) (task : Task)
    (hperm : s.events.Perm (Event.arrival t task :: rest))
    (h : Inv input s) :
    Inv input (handleArrival { s with events := rest } t task) := by
  have hpend : idsOf (pendingTasks s.events) = task.id ::ₘ idsOf (pendingTasks rest) := by
    have := idsOf_perm (pendingTasks_perm hperm)
    rwa [pendingTasks_arrival_cons, idsOf_cons] at this
  have hcnt : ∀ j, s.events.countP (isCompletionFor j) = rest.countP (isCompletionFor j) := by
    intro j
    rw [hperm.countP_eq, List.countP_cons]
    simp [isCompletionFor]
  unfold handleArrival
  dsimp only
  split
  · rename_i i hfi
    obtain ⟨w, hwi, hwb⟩ := findIdle_spec hfi
    have hi : i < s.workers.length := (List.getElem?_eq_some.1 hwi).1
    split
    · rename_i t' done c' hss
      obtain ⟨j0, hacq, ht', hdone⟩ := startServiceCore_serving hss
      have htid : t'.id = task.id := by rw [ht']
      refine ⟨?_, ?_, ?_, ?_, ?_⟩
      · have hc := h.conserved
        unfold liveTasks at hc ⊢
        dsimp only
        rw [idsOf_append, idsOf_append, idsOf_append] at hc
        rw [idsOf_append, idsOf_append, idsOf_append, pendingTasks_append,
          idsOf_append, busyList_set_busy hwi hwb t' done, htid, hpend] at *
        rw [← hc]
        simp only [← Multiset.singleton_add, pendingTasks_completion_cons,
          pendingTasks_nil, idsOf_nil]
        abel
      · exact h.finTerm
      · intro j
        have hb := h.busyOne j
        rw [List.countP_append]
        by_cases hji : j = i
        · subst hji
          have hb0 : busyAt s.workers j = false := by
            simp [busyAt, hwi, hwb]
          rw [hb0] at hb
          simp only [Bool.false_eq_true, if_false] at hb
          have hr : rest.countP (isCompletionFor j) = 0 := by
            rw [← hcnt j]
            exact hb
          rw [busyAt_set_self hi]
          simp [List.countP_cons, isCompletionFor, hr]
        · rw [busyAt_set_ne (Ne.symm hji)]
          rw [hcnt j] at hb
          have hcf : isCompletionFor j (Event.completion done i) = false := by
            simp [isCompletionFor]
            exact Ne.symm hji
          simp [List.countP_cons, hcf, hb]
      · intro hne w' hw'
        exact absurd (h.queueBusy hne w (mem_of_getElem? hwi)) (by simp [hwb])
      · exact set_ne_nil h.workersPos i _
    · rename_i t' c' hss
      obtain ⟨hacq, ht'⟩ := startServiceCore_failed hss
      have htid : t'.id = task.id := by rw [ht']
      refine ⟨?_, ?_, ?_, h.queueBusy, h.workersPos⟩
      · have hc := h.conserved
        unfold liveTasks at hc ⊢
        dsimp only
        rw [idsOf_append, idsOf_append, idsOf_append] at hc
        rw [idsOf_append, idsOf_append, idsOf_append, idsOf_append, idsOf_cons,
          idsOf_nil, htid, hpend] at *
        rw [← hc]
        simp only [← Multiset.singleton_add]
        abel
      · intro q hq
        rcases List.mem_append.1 hq with hq1 | hq2
        · exact h.finTerm q hq1
        · have hq3 : q = t' := by simpa using hq2
          subst hq3
          exact Or.inr (Or.inl (by rw [ht']))
      · intro j
        have hb := h.busyOne j
        rwa [hcnt j] at hb
  · rename_i hfi
    split
    · rename_i q' hte
      obtain ⟨hroom, rfl⟩ := tryEnqueue_true hte
      refine ⟨?_, h.finTerm, ?_, ?_, h.workersPos⟩
      · have hc := h.conserved
        unfold liveTasks at hc ⊢
        dsimp only
        rw [idsOf_append, idsOf_append, idsOf_append] at hc
        rw [idsOf_append, idsOf_append, idsOf_append, idsOf_append, idsOf_cons,
          idsOf_nil, hpend] at *
        rw [← hc]
        simp only [← Multiset.singleton_add]
        abel
      · intro j
        have hb := h.busyOne j
        rwa [hcnt j] at hb
      · intro hne w' hw'
        exact findIdle_none hfi w' hw'
    · rename_i q2 hte
      refine ⟨?_, ?_, ?_, h.queueBusy, h.workersPos⟩
      · have hc := h.conserved
        unfold liveTasks at hc ⊢
        dsimp only
        rw [idsOf_append, idsOf_append, idsOf_append] at hc
        rw [idsOf_append, idsOf_append, idsOf_append, idsOf_append, idsOf_cons,
          idsOf_nil, hpend] at *
        rw [← hc]
        simp only [← Multiset.singleton_add]
        abel
      · intro q hq
        rcases List.mem_append.1 hq with hq1 | hq2
        · exact h.finTerm q hq1
        · have hq3 : q = { task with queueEntry := t, state := TaskState.rejected } := by
            simpa using hq2
          subst hq3
          exact Or.inl rfl
      · intro j
        have hb := h.busyOne j
        rwa [hcnt j] at hb

theorem inv_handleCompletion (input : List Task) (s : SimState) (rest : List Event)
    (t : ℤ) (i : Nat)
    (hperm : s.events.Perm (Event.completion t i :: rest))
    (h : Inv input s) :
    Inv input (handleCompletion { s with events := rest } t i) := by
  have hpend : idsOf (pendingTasks s.events) = idsOf (pendingTasks rest) := by
    have := idsOf_perm (pendingTasks_perm hperm)
    rwa [pendingTasks_completion_cons] at this
  have hcnt : ∀ j, s.events.countP (isCompletionFor j) =
      rest.countP (isCompletionFor j) + (if j = i then 1 else 0) := by
    intro j
    rw [hperm.countP_eq, List.countP_cons]
    by_cases hj : j = i
    · subst hj
      simp [isCompletionFor]
    · simp [isCompletionFor, Ne.symm hj, hj]
  have hbusy : busyAt s.workers i = true := by
    have hb := h.busyOne i
    rw [hcnt i] at hb
    cases hv : busyAt s.workers i
    · rw [hv] at hb
      exact absurd hb (by simp)
    · rfl
  have hw0 : ∃ w, s.workers[i]? = some w ∧ w.busy.isSome = true := by
    unfold busyAt at hbusy
    cases hwi : s.workers[i]? with
    | none =>
      rw [hwi] at hbusy
      simp at hbusy
    | some w =>
      rw [hwi] at hbusy
      exact ⟨w, rfl, by simpa using hbusy⟩
  obtain ⟨w, hwi, hwiS⟩ := hw0
  obtain ⟨⟨task0, ctime⟩, hwb⟩ := Option.isSome_iff_exists.1 hwiS
  have hi : i < s.workers.length := (List.getElem?_eq_some.1 hwi).1
  have hitemsids := drainAux_ids s.client t s.queue.items
  have hslog := drainAux_startedLog s.client t s.queue.items
  have hQ : idsOf s.queue.items =
      idsOf (drainAux s.client t s.queue.items).startedLog +
      idsOf (drainAux s.client t s.queue.items).remaining := by
    rw [← idsOf_append]
    unfold idsOf
    rw [List.map_append, ← hitemsids]
  have hS : idsOf (drainAux s.client t s.queue.items).startedLog =
      idsOf (drainAux s.client t s.queue.items).failedDone +
      idsOf (servingList (drainAux s.client t s.queue.items).serving) := by
    rw [hslog, idsOf_append]
  unfold handleCompletion
  dsimp only
  split
  · rename_i w' hm
    have hww : w' = w := by
      rw [hwi] at hm
      injection hm with hm1
      exact hm1.symm
    subst hww
    split
    · rename_i task1 ctime1 hb1
      rw [hwb] at hb1
      injection hb1 with hb2
      injection hb2 with hb3 hb4
      subst hb3
      subst hb4
      split
      · rename_i t' done hserve
        have hServ : idsOf (servingList (drainAux s.client t s.queue.items).serving) =
            {t'.id} := by
          rw [hserve]
          rfl
        have hB1 := busyList_set_none hwi hwb
        have hB2 := busyList_set_busy
          (show (s.workers.set i (⟨none⟩ : Worker))[i]? = some ⟨none⟩ from
            List.getElem?_set_self (by simpa using hi)) rfl t' done
        have hitems : s.queue.items ≠ [] := by
          intro h0
          rw [h0] at hserve
          simp [drainAux] at hserve
        refine ⟨?_, ?_, ?_, ?_, ?_⟩
        · have hc := h.conserved
          unfold liveTasks at hc ⊢
          dsimp only
          rw [idsOf_append, idsOf_append, idsOf_append, hB1, hQ, hS, hServ, hpend] at hc
          rw [idsOf_append, idsOf_append, idsOf_append, idsOf_append, idsOf_cons,
            pendingTasks_append, idsOf_append, hB2]
          have hdt : ({ task0 with serviceEnd := t, state := TaskState.completed } : Task).id
              = task0.id := rfl
          rw [hdt, ← hc]
          simp only [← Multiset.singleton_add, pendingTasks_completion_cons,
            pendingTasks_nil, idsOf_nil]
          abel
        · intro q hq
          rcases List.mem_append.1 hq with hq1 | hq2
          · exact h.finTerm q hq1
          · rcases List.mem_cons.1 hq2 with rfl | hq3
            · exact Or.inr (Or.inr rfl)
            · exact Or.inr (Or.inl
                (drainAux_failed_state s.client t s.queue.items q hq3))
        · intro j
          dsimp only
          have hb := h.busyOne j
          rw [hcnt j] at hb
          rw [List.countP_append, List.set_set]
          by_cases hji : j = i
          · subst hji
            rw [if_pos rfl] at hb
            rw [hbusy, if_pos rfl] at hb
            rw [busyAt_set_self hi]
            simp only [List.countP_cons, List.countP_nil]
            have : isCompletionFor j (Event.completion done j) = true := by
              simp [isCompletionFor]
            simp [this]
            have h0 : List.countP (isCompletionFor j) rest = 0 := by omega
            intro a ha
            simpa using List.countP_eq_zero.1 h0 a ha
          · rw [if_neg hji] at hb
            rw [busyAt_set_ne (Ne.symm hji)]
            have : isCompletionFor j (Event.completion done i) = false := by
              simp [isCompletionFor]
              exact Ne.symm hji
            simp [List.countP_cons, this]
            omega
        · intro hne w' hw'
          rw [List.set_set] at hw'
          rcases List.mem_or_eq_of_mem_set hw' with hmem | rfl
          · exact h.queueBusy hitems w' hmem
          · rfl
        · rw [List.set_set]
          exact set_ne_nil h.workersPos i _
      · rename_i hserve
        have hrem : (drainAux s.client t s.queue.items).remaining = [] :=
          drainAux_none_remaining s.client t s.queue.items hserve
        have hServ : idsOf (servingList (drainAux s.client t s.queue.items).serving) =
            0 := by
          rw [hserve]
          rfl
        have hB1 := busyList_set_none hwi hwb
        refine ⟨?_, ?_, ?_, ?_, ?_⟩
        · have hc := h.conserved
          unfold liveTasks at hc ⊢
          dsimp only
          rw [idsOf_append, idsOf_append, idsOf_append, hB1, hQ, hS, hServ, hpend] at hc
          rw [idsOf_append, idsOf_append, idsOf_append, idsOf_append, idsOf_cons]
          have hdt : ({ task0 with serviceEnd := t, state := TaskState.completed } : Task).id
              = task0.id := rfl
          rw [hdt, ← hc]
          simp only [← Multiset.singleton_add]
          abel
        · intro q hq
          rcases List.mem_append.1 hq with hq1 | hq2
          · exact h.finTerm q hq1
          · rcases List.mem_cons.1 hq2 with rfl | hq3
            · exact Or.inr (Or.inr rfl)
            · exact Or.inr (Or.inl
                (drainAux_failed_state s.client t s.queue.items q hq3))
        · intro j
          dsimp only
          have hb := h.busyOne j
          rw [hcnt j] at hb
          by_cases hji : j = i
          · subst hji
            rw [if_pos rfl] at hb
            rw [hbusy, if_pos rfl] at hb
            have hr : rest.countP (isCompletionFor j) = 0 := by omega
            rw [hr, busyAt_set_self hi]
            rfl
          · rw [if_neg hji] at hb
            rw [busyAt_set_ne (Ne.symm hji)]
            omega
        · intro hne
          rw [hrem] at hne
          exact absurd rfl hne
        · exact set_ne_nil h.workersPos i _
    · rename_i hb1
      rw [hwb] at hb1
      cases hb1
  · rename_i hm
    rw [hwi] at hm
    cases hm

theorem inv_step (input : List Task) (s : SimState) (h : Inv input s) :
    Inv input (step s) := by
  cases hsel : selectMin s.events with
  | none =>
    unfold step
    rw [hsel]
    exact h
  | some p =>
    obtain ⟨ev, rest⟩ := p
    have hperm := selectMin_perm hsel
    unfold step
    rw [hsel]
    cases ev with
    | arrival t task => exact inv_handleArrival input s rest t task hperm h
    | completion t i => exact inv_handleCompletion input s rest t i hperm h

theorem busyAt_replicate_none (n i : Nat) :
    busyAt (List.replicate n ⟨none⟩) i = false := by
  unfold busyAt
  rw [List.getElem?_replicate]
  by_cases hi : i < n <;> simp [hi]

theorem busyList_replicate_none (n : Nat) :
    busyList (List.replicate n ⟨none⟩) = [] := by
  induction n with
  | zero => rfl
  | succ n ih => simpa [List.replicate_succ, busyList] using ih

theorem pendingTasks_init (tasks : List Task) :
    pendingTasks (tasks.map fun t => Event.arrival t.arrival t) = tasks := by
  induction tasks with
  | nil => rfl
  | cons a rest ih => simpa [pendingTasks] using ih

theorem inv_init (tasks : List Task) (nw : Nat) (cap : Option Nat) (na rpm : Nat)
    (hnw : 0 < nw) : Inv tasks (initState tasks nw cap na rpm) := by
  refine ⟨?_, ?_, ?_, ?_, ?_⟩
  · unfold liveTasks initState
    dsimp only
    rw [busyList_replicate_none, pendingTasks_init]
    simp
  · intro q hq
    cases hq
  · intro j
    unfold initState
    dsimp only
    rw [busyAt_replicate_none]
    simp only [Bool.false_eq_true, if_false]
    rw [List.countP_eq_zero.2]
    intro e he
    obtain ⟨task, -, rfl⟩ := List.mem_map.1 he
    simp [isCompletionFor]
  · intro hne
    exact absurd rfl hne
  · unfold initState
    dsimp only
    intro hc
    have hl := congrArg List.length hc
    rw [List.length_replicate] at hl
    simp at hl
    omega

theorem count_terminal (l : List Task) (h : ∀ q ∈ l, q.isTerminal) :
    countState l .rejected + countState l .failed + countState l .completed = l.length := by
  induction l with
  | nil => rfl
  | cons a rest ih =>
    have ha := h a (by simp)
    have hr := ih (fun q hq => h q (by simp [hq]))
    unfold countState at *
    simp only [List.countP_cons, List.length_cons]
    rcases ha with h1 | h1 | h1 <;> simp [h1] <;> omega

/-- C1: for every run (with a positive worker count) the engine terminates
with no pending event, the final task list carries exactly the ids of the
input tasks, every final task is in a terminal state, and the Rejected,
Failed and Completed counts sum to the number of input tasks. -/
theorem run_conservation (tasks : List Task) (nw : Nat) (cap : Option Nat)
    (na rpm : Nat) (hnw : 0 < nw) :
    (simulate tasks nw cap na rpm).events = [] ∧
    idsOf (simulate tasks nw cap na rpm).finished = idsOf tasks ∧
    (∀ q ∈ (simulate tasks nw cap na rpm).finished, q.isTerminal) ∧
    countState (simulate tasks nw cap na rpm).finished .rejected +
      countState (simulate tasks nw cap na rpm).finished .failed +
      countState (simulate tasks nw cap na rpm).finished .completed = tasks.length := by
  have hfin : Inv tasks (simulate tasks nw cap na rpm) :=
    run_preserves (fun s _ h => inv_step tasks s h) _
      (inv_init tasks nw cap na rpm hnw)
  have hev : (simulate tasks nw cap na rpm).events = [] := run_events_nil _
  have hidle : ∀ w ∈ (simulate tasks nw cap na rpm).workers, w.busy = none := by
    intro w hw
    obtain ⟨i, hi, rfl⟩ := List.mem_iff_getElem.1 hw
    have hb := hfin.busyOne i
    rw [hev] at hb
    simp only [List.countP_nil] at hb
    have hfa : busyAt (simulate tasks nw cap na rpm).workers i = false := by
      cases hv : busyAt (simulate tasks nw cap na rpm).workers i
      · rfl
      · rw [hv] at hb
        simp at hb
    unfold busyAt at hfa
    rw [List.getElem?_eq_getElem hi] at hfa
    dsimp only at hfa
    cases hb2 : ((simulate tasks nw cap na rpm).workers[i]).busy with
    | none => rfl
    | some p =>
      rw [hb2] at hfa
      simp at hfa
  have hq : (simulate tasks nw cap na rpm).queue.items = [] := by
    by_contra hne
    obtain ⟨w, hw⟩ := List.exists_mem_of_ne_nil _ hfin.workersPos
    have h1 := hfin.queueBusy hne w hw
    rw [hidle w hw] at h1
    cases h1
  have hbl : busyList (simulate tasks nw cap na rpm).workers = [] := by
    unfold busyList
    rw [List.filterMap_eq_nil_iff.2]
    intro w hw
    rw [hidle w hw]
    rfl
  have hcons := hfin.conserved
  unfold liveTasks at hcons
  rw [hev, hq, hbl] at hcons
  simp only [pendingTasks_nil, List.append_nil] at hcons
  have hlen : (simulate tasks nw cap na rpm).finished.length = tasks.length := by
    have := congrArg Multiset.card hcons
    simpa [idsOf] using this
  exact ⟨hev, hcons, hfin.finTerm,
    by rw [count_terminal _ hfin.finTerm, hlen]⟩

/-- Witness for C1: a two-task run with one worker and a single-slot
queue terminates with both ids conserved and the counts adding up. -/
theorem run_conservation_witness :
    (simulate [⟨0, 0, 5, 0, 0, 0, .arrived, none⟩, ⟨1, 3, 2, 0, 0, 0, .arrived, none⟩]
        1 (some 1) 1 60).events = [] ∧
    idsOf (simulate [⟨0, 0, 5, 0, 0, 0, .arrived, none⟩, ⟨1, 3, 2, 0, 0, 0, .arrived, none⟩]
        1 (some 1) 1 60).finished =
      idsOf [⟨0, 0, 5, 0, 0, 0, .arrived, none⟩, ⟨1, 3, 2, 0, 0, 0, .arrived, none⟩] ∧
    (∀ q ∈ (simulate [⟨0, 0, 5, 0, 0, 0, .arrived, none⟩, ⟨1, 3, 2, 0, 0, 0, .arrived, none⟩]
        1 (some 1) 1 60).finished, q.isTerminal) ∧
    countState (simulate [⟨0, 0, 5, 0, 0, 0, .arrived, none⟩,
        ⟨1, 3, 2, 0, 0, 0, .arrived, none⟩] 1 (some 1) 1 60).finished .rejected +
      countState (simulate [⟨0, 0, 5, 0, 0, 0, .arrived, none⟩,
        ⟨1, 3, 2, 0, 0, 0, .arrived, none⟩] 1 (some 1) 1 60).finished .failed +
      countState (simulate [⟨0, 0, 5, 0, 0, 0, .arrived, none⟩,
        ⟨1, 3, 2, 0, 0, 0, .arrived, none⟩] 1 (some 1) 1 60).finished .completed = 2 :=
  run_conservation [⟨0, 0, 5, 0, 0, 0, .arrived, none⟩, ⟨1, 3, 2, 0, 0, 0, .arrived, none⟩]
    1 (some 1) 1 60 (by decide)

/-! ## Claim C6: service in arrival order — invariant preservation -/

theorem pendingArrTimes_append (l l' : List Event) :
    pendingArrTimes (l ++ l') = pendingArrTimes l ++ pendingArrTimes l' :=
  List.filterMap_append l l' _

theorem pendingArrTimes_arrival_cons (t : ℤ) (task : Task) (l : List Event) :
    pendingArrTimes (.arrival t task :: l) = t :: pendingArrTimes l := rfl

theorem pendingArrTimes_completion_cons (t : ℤ) (i : Nat) (l : List Event) :
    pendingArrTimes (.completion t i :: l) = pendingArrTimes l := rfl

theorem pendingArrTimes_nil : pendingArrTimes [] = [] := rfl

theorem pairwise_le_const (l : List ℤ) (c : ℤ) (hall : ∀ x ∈ l, x = c) :
    l.Pairwise (· ≤ ·) := by
  induction l with
  | nil => exact List.Pairwise.nil
  | cons a rest ih =>
    refine List.Pairwise.cons ?_ (ih fun x hx => hall x (by simp [hx]))
    intro b hb
    rw [hall a (by simp), hall b (by simp [hb])]

theorem invOrder_handleArrival (input : List Task) (s : SimState)
    (l1 l2 : List Event) (t : ℤ) (task : Task)
    (hl : s.events = l1 ++ Event.arrival t task :: l2)
    (hmax : ∀ x ∈ l1, ¬ evLE x (Event.arrival t task))
    (hmin : ∀ x ∈ l1 ++ l2, evLE (Event.arrival t task) x)
    (h : InvOrder input s) :
    InvOrder input (handleArrival { s with events := l1 ++ l2 } t task) := by
  have hsorted := h.arrSorted
  rw [hl, pendingArrTimes_append, pendingArrTimes_arrival_cons] at hsorted
  have hcross := (List.pairwise_append.1 hsorted).2.2
  have hnoarr1 : pendingTasks l1 = [] := by
    unfold pendingTasks
    rw [List.filterMap_eq_nil_iff]
    intro x hx
    cases x with
    | completion _ _ => rfl
    | arrival ta tk =>
      exfalso
      apply hmax _ hx
      have hta : ta ≤ t :=
        hcross ta (List.mem_filterMap.2 ⟨.arrival ta tk, hx, rfl⟩) t (by simp)
      rcases lt_or_eq_of_le hta with hlt | heq
      · exact Or.inl hlt
      · exact Or.inr ⟨heq, le_refl _⟩
  have hnoarr2 : pendingArrTimes l1 = [] := by
    unfold pendingArrTimes
    rw [List.filterMap_eq_nil_iff]
    intro x hx
    cases x with
    | completion _ _ => rfl
    | arrival ta tk =>
      exfalso
      apply hmax _ hx
      have hta : ta ≤ t :=
        hcross ta (List.mem_filterMap.2 ⟨.arrival ta tk, hx, rfl⟩) t (by simp)
      rcases lt_or_eq_of_le hta with hlt | heq
      · exact Or.inl hlt
      · exact Or.inr ⟨heq, le_refl _⟩
  have hpends : pendingTasks s.events = task :: pendingTasks (l1 ++ l2) := by
    rw [hl, pendingTasks_append, hnoarr1, pendingTasks_arrival_cons,
      pendingTasks_append, hnoarr1]
    simp
  have hparr : pendingArrTimes s.events = t :: pendingArrTimes (l1 ++ l2) := by
    rw [hl, pendingArrTimes_append, hnoarr2, pendingArrTimes_arrival_cons,
      pendingArrTimes_append, hnoarr2]
    simp
  have hnow : s.now ≤ t := by
    have := h.timeMono (Event.arrival t task)
      (by rw [hl]; exact List.mem_append_right _ (by simp))
    simpa using this
  have hdur : 0 ≤ task.duration := h.durEv task (by rw [hpends]; simp)
  have htm : ∀ e ∈ l1 ++ l2, t ≤ e.time := fun e he => evLE_time (hmin e he)
  have hdurEv : ∀ q ∈ pendingTasks (l1 ++ l2), 0 ≤ q.duration := by
    intro q hq
    exact h.durEv q (by rw [hpends]; simp [hq])
  have harrS : (pendingArrTimes (l1 ++ l2)).Pairwise (· ≤ ·) := by
    have := h.arrSorted
    rw [hparr] at this
    exact (List.pairwise_cons.1 this).2
  have hstartLast : ∀ q ∈ s.started, q.serviceStart ≤ t :=
    fun q hq => le_trans (h.startLast q hq) hnow
  unfold handleArrival
  dsimp only
  split
  · rename_i i hfi
    obtain ⟨w, hwi, hwb⟩ := findIdle_spec hfi
    have hqe : s.queue.items = [] := by
      by_contra hne
      exact absurd (h.queueBusy hne w (mem_of_getElem? hwi)) (by simp [hwb])
    split
    · rename_i t' done c' hss
      obtain ⟨j0, hacq, ht', hdone⟩ := startServiceCore_serving hss
      have htid : t'.id = task.id := by rw [ht']
      have hts : t'.serviceStart = t := by rw [ht']
      refine ⟨h.unbounded, ?_, h.durQ, ?_, ?_, ?_, ?_, ?_, ?_, ?_⟩
      · intro e he
        rcases List.mem_append.1 he with he1 | he2
        · exact htm e he1
        · have he3 : e = Event.completion done i := by simpa using he2
          subst he3
          show t ≤ done
          rw [hdone]
          have : ({ task with queueEntry := t, state := TaskState.queued } : Task).duration
              = task.duration := rfl
          rw [this]
          omega
      · intro q hq
        rw [pendingTasks_append, pendingTasks_completion_cons, pendingTasks_nil,
          List.append_nil] at hq
        exact hdurEv q hq
      · rw [pendingArrTimes_append, pendingArrTimes_completion_cons,
          pendingArrTimes_nil, List.append_nil]
        exact harrS
      · have ho := h.orderInv
        rw [hqe] at ho
        simp only [List.map_nil, List.append_nil] at ho
        rw [hqe]
        simp [ho, htid]
      · have hlog := h.logInv
        rw [hpends] at hlog
        rw [pendingTasks_append, pendingTasks_completion_cons, pendingTasks_nil,
          List.append_nil]
        simp only [List.map_append, List.map_cons] at hlog ⊢
        simpa using hlog
      · rw [List.map_append]
        refine List.pairwise_append.2 ⟨h.startMono, ?_, ?_⟩
        · exact pairwise_le_const _ t (by simp [hts])
        · intro a ha b hb
          simp only [List.map_cons, List.map_nil, List.mem_singleton] at hb
          obtain ⟨q, hq, rfl⟩ := List.mem_map.1 ha
          rw [hb, hts]
          exact hstartLast q hq
      · intro q hq
        rcases List.mem_append.1 hq with hq1 | hq2
        · exact hstartLast q hq1
        · have : q = t' := by simpa using hq2
          subst this
          rw [hts]
      · intro hne
        exact absurd hqe hne
    · rename_i t' c' hss
      obtain ⟨hacq, ht'⟩ := startServiceCore_failed hss
      have htid : t'.id = task.id := by rw [ht']
      have hts : t'.serviceStart = t := by rw [ht']
      refine ⟨h.unbounded, ?_, h.durQ, ?_, ?_, ?_, ?_, ?_, ?_, ?_⟩
      · exact htm
      · intro q hq
        exact hdurEv q hq
      · exact harrS
      · have ho := h.orderInv
        rw [hqe] at ho
        simp only [List.map_nil, List.append_nil] at ho
        rw [hqe]
        simp [ho, htid]
      · have hlog := h.logInv
        rw [hpends] at hlog
        simp only [List.map_append, List.map_cons] at hlog ⊢
        simpa using hlog
      · rw [List.map_append]
        refine List.pairwise_append.2 ⟨h.startMono, ?_, ?_⟩
        · exact pairwise_le_const _ t (by simp [hts])
        · intro a ha b hb
          simp only [List.map_cons, List.map_nil, List.mem_singleton] at hb
          obtain ⟨q, hq, rfl⟩ := List.mem_map.1 ha
          rw [hb, hts]
          exact hstartLast q hq
      · intro q hq
        rcases List.mem_append.1 hq with hq1 | hq2
        · exact hstartLast q hq1
        · have : q = t' := by simpa using hq2
          subst this
          rw [hts]
      · intro hne
        exact absurd hqe hne
  · rename_i hfi
    split
    · rename_i q' hte
      obtain ⟨hroom, rfl⟩ := tryEnqueue_true hte
      refine ⟨h.unbounded, ?_, ?_, ?_, ?_, ?_, ?_, h.startMono, ?_, ?_⟩
      · exact htm
      · intro q hq
        rcases List.mem_append.1 hq with hq1 | hq2
        · exact h.durQ q hq1
        · have : q = { task with queueEntry := t, state := TaskState.queued } := by
            simpa using hq2
          subst this
          exact hdur
      · intro q hq
        exact hdurEv q hq
      · exact harrS
      · have ho := h.orderInv
        simp only [List.map_append]
        rw [ho]
        simp
      · have hlog := h.logInv
        rw [hpends] at hlog
        simp only [List.map_append, List.map_cons] at hlog ⊢
        simpa using hlog
      · exact fun q hq => hstartLast q hq
      · intro hne w' hw'
        exact findIdle_none hfi w' hw'
    · rename_i q2 hte
      exfalso
      have hroom : s.queue.hasRoom = true := by
        unfold FifoQueue.hasRoom
        rw [h.unbounded]
      exact absurd ((tryEnqueue_false hte).1) (by simp [hroom])

theorem invOrder_handleCompletion (input : List Task) (s : SimState)
    (l1 l2 : List Event) (t : ℤ) (i : Nat)
    (hl : s.events = l1 ++ Event.completion t i :: l2)
    (hmin : ∀ x ∈ l1 ++ l2, evLE (Event.completion t i) x)
    (h : InvOrder input s) :
    InvOrder input (handleCompletion { s with events := l1 ++ l2 } t i) := by
  have hpends : pendingTasks s.events = pendingTasks (l1 ++ l2) := by
    rw [hl, pendingTasks_append, pendingTasks_completion_cons, pendingTasks_append]
  have hparr : pendingArrTimes s.events = pendingArrTimes (l1 ++ l2) := by
    rw [hl, pendingArrTimes_append, pendingArrTimes_completion_cons,
      pendingArrTimes_append]
  have hnow : s.now ≤ t := by
    have := h.timeMono (Event.completion t i)
      (by rw [hl]; exact List.mem_append_right _ (by simp))
    simpa using this
  have htm : ∀ e ∈ l1 ++ l2, t ≤ e.time := fun e he => evLE_time (hmin e he)
  have hstartLast : ∀ q ∈ s.started, q.serviceStart ≤ t :=
    fun q hq => le_trans (h.startLast q hq) hnow
  have hdurEv : ∀ q ∈ pendingTasks (l1 ++ l2), 0 ≤ q.duration := by
    intro q hq
    exact h.durEv q (by rw [hpends]; exact hq)
  have harrS : (pendingArrTimes (l1 ++ l2)).Pairwise (· ≤ ·) := hparr ▸ h.arrSorted
  have hlogInv : s.arrivedLog.map Task.id ++ (pendingTasks (l1 ++ l2)).map Task.id =
      input.map Task.id := by
    have := h.logInv
    rwa [hpends] at this
  have hdrainIds := drainAux_ids s.client t s.queue.items
  have hsttime := drainAux_started_time s.client t s.queue.items
  unfold handleCompletion
  dsimp only
  split
  · rename_i w hm
    split
    · rename_i task0 ctime hb1
      split
      · rename_i t' done hserve
        obtain ⟨-, -, src, hsrc, -, hdone⟩ :=
          drainAux_serving_src s.client t s.queue.items t' done hserve
        have hitems : s.queue.items ≠ [] := by
          intro h0
          rw [h0] at hserve
          simp [drainAux] at hserve
        refine ⟨h.unbounded, ?_, ?_, ?_, ?_, ?_, ?_, ?_, ?_, ?_⟩
        · intro e he
          rcases List.mem_append.1 he with he1 | he2
          · exact htm e he1
          · have he3 : e = Event.completion done i := by simpa using he2
            subst he3
            show t ≤ done
            rw [hdone]
            have := h.durQ src hsrc
            omega
        · intro q hq
          exact h.durQ q (drainAux_remaining_subset s.client t s.queue.items q hq)
        · intro q hq
          rw [pendingTasks_append, pendingTasks_completion_cons, pendingTasks_nil,
            List.append_nil] at hq
          exact hdurEv q hq
        · rw [pendingArrTimes_append, pendingArrTimes_completion_cons,
            pendingArrTimes_nil, List.append_nil]
          exact harrS
        · have ho := h.orderInv
          have hq := hdrainIds
          simp only [List.map_append] at hq ⊢
          rw [ho, hq]
          simp
        · rw [pendingTasks_append, pendingTasks_completion_cons, pendingTasks_nil,
            List.append_nil]
          exact hlogInv
        · rw [List.map_append]
          refine List.pairwise_append.2 ⟨h.startMono, ?_, ?_⟩
          · exact pairwise_le_const _ t (by
              intro x hx
              obtain ⟨q, hq, rfl⟩ := List.mem_map.1 hx
              exact hsttime q hq)
          · intro a ha b hb
            obtain ⟨q, hq, rfl⟩ := List.mem_map.1 ha
            obtain ⟨q2, hq2, rfl⟩ := List.mem_map.1 hb
            rw [hsttime q2 hq2]
            exact hstartLast q hq
        · intro q hq
          rcases List.mem_append.1 hq with hq1 | hq2
          · exact hstartLast q hq1
          · rw [hsttime q hq2]
        · intro hne w' hw'
          rw [List.set_set] at hw'
          rcases List.mem_or_eq_of_mem_set hw' with hmem | rfl
          · exact h.queueBusy hitems w' hmem
          · rfl
      · rename_i hserve
        have hrem := drainAux_none_remaining s.client t s.queue.items hserve
        refine ⟨h.unbounded, ?_, ?_, ?_, ?_, ?_, ?_, ?_, ?_, ?_⟩
        · exact htm
        · intro q hq
          rw [hrem] at hq
          cases hq
        · intro q hq
          exact hdurEv q hq
        · exact harrS
        · have ho := h.orderInv
          have hq := hdrainIds
          simp only [List.map_append] at hq ⊢
          rw [ho, hq]
          simp
        · exact hlogInv
        · rw [List.map_append]
          refine List.pairwise_append.2 ⟨h.startMono, ?_, ?_⟩
          · exact pairwise_le_const _ t (by
              intro x hx
              obtain ⟨q, hq, rfl⟩ := List.mem_map.1 hx
              exact hsttime q hq)
          · intro a ha b hb
            obtain ⟨q, hq, rfl⟩ := List.mem_map.1 ha
            obtain ⟨q2, hq2, rfl⟩ := List.mem_map.1 hb
            rw [hsttime q2 hq2]
            exact hstartLast q hq
        · intro q hq
          rcases List.mem_append.1 hq with hq1 | hq2
          · exact hstartLast q hq1
          · rw [hsttime q hq2]
        · intro hne
          rw [hrem] at hne
          exact absurd rfl hne
    · rename_i hb1
      refine ⟨h.unbounded, htm, h.durQ, ?_, harrS, h.orderInv, hlogInv, h.startMono,
        hstartLast, h.queueBusy⟩
      intro q hq
      exact hdurEv q hq
  · rename_i hm
    refine ⟨h.unbounded, htm, h.durQ, ?_, harrS, h.orderInv, hlogInv, h.startMono,
      hstartLast, h.queueBusy⟩
    intro q hq
    exact hdurEv q hq

theorem invOrder_step (input : List Task) (s : SimState) (h : InvOrder input s) :
    InvOrder input (step s) := by
  cases hsel : selectMin s.events with
  | none =>
    unfold step
    rw [hsel]
    exact h
  | some p =>
    obtain ⟨ev, rest⟩ := p
    obtain ⟨l1, l2, hl, hrest, hmax, hmin⟩ := selectMin_spec hsel
    subst hrest
    unfold step
    rw [hsel]
    cases ev with
    | arrival t task => exact invOrder_handleArrival input s l1 l2 t task hl hmax hmin h
    | completion t i => exact invOrder_handleCompletion input s l1 l2 t i hl hmin h

theorem pendingArrTimes_init (tasks : List Task) :
    pendingArrTimes (tasks.map fun t => Event.arrival t.arrival t) =
      tasks.map Task.arrival := by
  induction tasks with
  | nil => rfl
  | cons a rest ih => simpa [pendingArrTimes] using ih

theorem invOrder_init (tasks : List Task)
    (hsort : (tasks.map Task.arrival).Pairwise (· ≤ ·))
    (hdur : ∀ q ∈ tasks, 0 ≤ q.duration)
    (harr : ∀ q ∈ tasks, 0 ≤ q.arrival)
    (nw na rpm : Nat) :
    InvOrder tasks (initState tasks nw none na rpm) := by
  refine ⟨rfl, ?_, ?_, ?_, ?_, rfl, ?_, List.Pairwise.nil, ?_, ?_⟩
  · intro e he
    unfold initState at he
    dsimp only at he
    obtain ⟨q, hq, rfl⟩ := List.mem_map.1 he
    exact harr q hq
  · intro q hq
    cases hq
  · intro q hq
    unfold initState at hq
    dsimp only at hq
    rw [pendingTasks_init] at hq
    exact hdur q hq
  · unfold initState
    dsimp only
    rw [pendingArrTimes_init]
    exact hsort
  · unfold initState
    dsimp only
    rw [pendingTasks_init]
    simp
  · intro q hq
    cases hq
  · intro hne
    exact absurd rfl hne

theorem inv_final_queue_empty (input : List Task) (s : SimState) (hfin : Inv input s)
    (hev : s.events = []) : s.queue.items = [] := by
  have hidle : ∀ w ∈ s.workers, w.busy = none := by
    intro w hw
    obtain ⟨i, hi, rfl⟩ := List.mem_iff_getElem.1 hw
    have hb := hfin.busyOne i
    rw [hev] at hb
    simp only [List.countP_nil] at hb
    have hfa : busyAt s.workers i = false := by
      cases hv : busyAt s.workers i
      · rfl
      · rw [hv] at hb
        simp at hb
    unfold busyAt at hfa
    rw [List.getElem?_eq_getElem hi] at hfa
    dsimp only at hfa
    cases hb2 : (s.workers[i]).busy with
    | none => rfl
    | some p =>
      rw [hb2] at hfa
      simp at hfa
  by_contra hne
  obtain ⟨w, hw⟩ := List.exists_mem_of_ne_nil _ hfin.workersPos
  have h1 := hfin.queueBusy hne w hw
  rw [hidle w hw] at h1
  cases h1

/-- C6: with a single worker and an unbounded queue, for an input trace
with non-decreasing, non-negative arrival times and non-negative durations,
tasks begin service in exactly the input (arrival) order, and the sequence
of service-start timestamps logged in that order is non-decreasing. -/
theorem single_worker_service_order (tasks : List Task) (na rpm : Nat)
    (hsort : (tasks.map Task.arrival).Pairwise (· ≤ ·))
    (hdur : ∀ q ∈ tasks, 0 ≤ q.duration)
    (harr : ∀ q ∈ tasks, 0 ≤ q.arrival) :
    (simulate tasks 1 none na rpm).started.map Task.id = tasks.map Task.id ∧
    ((simulate tasks 1 none na rpm).started.map Task.serviceStart).Pairwise (· ≤ ·) := by
  have hfin : Inv tasks (simulate tasks 1 none na rpm) :=
    run_preserves (fun s _ h => inv_step tasks s h) _
      (inv_init tasks 1 none na rpm (by omega))
  have hord : InvOrder tasks (simulate tasks 1 none na rpm) :=
    run_preserves (fun s _ h => invOrder_step tasks s h) _
      (invOrder_init tasks hsort hdur harr 1 na rpm)
  have hev : (simulate tasks 1 none na rpm).events = [] := run_events_nil _
  have hq : (simulate tasks 1 none na rpm).queue.items = [] :=
    inv_final_queue_empty tasks _ hfin hev
  have hlog := hord.logInv
  rw [hev, pendingTasks_nil] at hlog
  simp only [List.map_nil, List.append_nil] at hlog
  have ho := hord.orderInv
  rw [hq] at ho
  simp only [List.map_nil, List.append_nil] at ho
  exact ⟨by rw [← ho, hlog], hord.startMono⟩

/-- Witness for C6 at a concrete two-task trace. -/
theorem single_worker_service_order_witness :
    (simulate [⟨0, 0, 4, 0, 0, 0, .arrived, none⟩, ⟨1, 1, 2, 0, 0, 0, .arrived, none⟩]
        1 none 1 60).started.map Task.id =
      [⟨0, 0, 4, 0, 0, 0, .arrived, none⟩, ⟨1, 1, 2, 0, 0, 0, .arrived, none⟩].map Task.id ∧
    ((simulate [⟨0, 0, 4, 0, 0, 0, .arrived, none⟩, ⟨1, 1, 2, 0, 0, 0, .arrived, none⟩]
        1 none 1 60).started.map Task.serviceStart).Pairwise (· ≤ ·) :=
  single_worker_service_order
    [⟨0, 0, 4, 0, 0, 0, .arrived, none⟩, ⟨1, 1, 2, 0, 0, 0, .arrived, none⟩] 1 60
    (by decide) (by decide) (by decide)

end QueueSim
